import Mathlib

/-!
Verification development for `bin/compare-gas.py`: a gas-regression diff
filter.  Lines of text are modelled as `List Char`, gas values as `ℚ`
(the numeric literals accepted by the gas-row pattern are decimal, hence
exactly representable), and each Python function is translated into an
executable Lean definition.  Regular expressions are translated into
explicit character scanners; `dict` insertion with later-keys-overwrite
is modelled by `getLast?` over a filtered list; the imperative
`keep_map`/`skip_idx` emission is modelled by a per-entry decision
function returning `Option`.
-/

namespace CompareGas

/-- Python whitespace (`str.strip` family and the regex class `\s`):
space, tab, newline, carriage return, vertical tab, form feed. -/
def pyWs (c : Char) : Bool :=
  c = ' ' || c = '\t' || c = '\n' || c = '\r' || c = '\x0b' || c = '\x0c'

/-- `str.lstrip()`. -/
def pyLstrip (l : List Char) : List Char := l.dropWhile pyWs

/-- `str.rstrip()`. -/
def pyRstrip (l : List Char) : List Char := (l.reverse.dropWhile pyWs).reverse

/-- `str.strip()`. -/
def pyStrip (l : List Char) : List Char := pyRstrip (pyLstrip l)

/-- Body characters of an ANSI SGR escape sequence: the `[0-9;]` class of
the regex `\x1b\[[0-9;]*m`. -/
def ansiBody (c : Char) : Bool := c.isDigit || c = ';'

/-- Scanner state machine for `re.sub(r"\x1b\[[0-9;]*m", "", text)`
(`strip_ansi_codes` in the source).  Mode 0: normal scanning; mode 1: the
previous character was ESC; mode 2: inside `ESC [`, with the body
characters seen so far in `buf` (reversed).  A candidate escape sequence
that fails to complete with `m` is emitted verbatim, and rescanning
cannot start inside it because its interior holds no ESC. -/
def stripAnsiAux : Nat → List Char → List Char → List Char
  | 0, _, [] => []
  | 0, _, c :: rest =>
    if c = '\x1b' then stripAnsiAux 1 [] rest else c :: stripAnsiAux 0 [] rest
  | 1, _, [] => ['\x1b']
  | 1, _, c :: rest =>
    if c = '[' then stripAnsiAux 2 [] rest
    else '\x1b' ::
      (if c = '\x1b' then stripAnsiAux 1 [] rest else c :: stripAnsiAux 0 [] rest)
  | 2, buf, [] => '\x1b' :: '[' :: buf.reverse
  | 2, buf, c :: rest =>
    if ansiBody c then stripAnsiAux 2 (c :: buf) rest
    else if c = 'm' then stripAnsiAux 0 [] rest
    else ('\x1b' :: '[' :: buf.reverse) ++
      (if c = '\x1b' then stripAnsiAux 1 [] rest else c :: stripAnsiAux 0 [] rest)
  | _ + 3, _, _ => []

/-- `strip_ansi_codes(text)`: remove ANSI color codes from text. -/
def strip_ansi_codes (l : List Char) : List Char := stripAnsiAux 0 [] l

/-- Removal of a single leading `+` or `-`:
`re.sub(r"^[+-]", "", clean_line)` in `parse_gas_line`. -/
def dropMarker (l : List Char) : List Char :=
  match l with
  | [] => []
  | c :: rest => if c = '+' || c = '-' then rest else c :: rest

/-- Digit list to natural number. -/
def digitsToNat (l : List Char) : Nat :=
  l.foldl (fun n c => 10 * n + (c.toNat - 48)) 0

/-- Value of the numeric token `intPart [. frac] [e ± exp]` as an exact
rational: `(intPart·10^|frac| + frac) · 10^exp / 10^|frac|`, built with
`mkRat` so that it evaluates by kernel reduction. -/
def numValue (intPart frac : List Char) (negExp : Bool) (expDigits : List Char) : ℚ :=
  let base : Nat := digitsToNat intPart * 10 ^ frac.length + digitsToNat frac
  let e : Nat := digitsToNat expDigits
  if negExp then mkRat (base : Int) (10 ^ frac.length * 10 ^ e)
  else mkRat ((base * 10 ^ e : Nat) : Int) (10 ^ frac.length)

/-- Value of the numeric group `\d+(?:\.\d+)?(?:e[+-]?\d+)?` matched by
the gas-row pattern, as an exact rational (`float(...)` in the source).
Returns `none` unless the whole token has exactly that shape. -/
def parseNum (s : List Char) : Option ℚ :=
  let intPart := s.takeWhile Char.isDigit
  let r1 := s.dropWhile Char.isDigit
  if intPart.isEmpty then none else
  -- optional fractional part `.` followed by at least one digit
  let fracAndRest : List Char × List Char :=
    match r1 with
    | '.' :: r2 =>
      let f := r2.takeWhile Char.isDigit
      if f.isEmpty then ([], r1) else (f, r2.dropWhile Char.isDigit)
    | _ => ([], r1)
  let frac := fracAndRest.1
  let r2 := fracAndRest.2
  -- optional exponent `e` with optional sign and at least one digit
  let expAndRest : Bool × List Char × List Char :=
    match r2 with
    | 'e' :: '+' :: r3 =>
      let e := r3.takeWhile Char.isDigit
      if e.isEmpty then (false, [], r2) else (false, e, r3.dropWhile Char.isDigit)
    | 'e' :: '-' :: r3 =>
      let e := r3.takeWhile Char.isDigit
      if e.isEmpty then (false, [], r2) else (true, e, r3.dropWhile Char.isDigit)
    | 'e' :: r3 =>
      let e := r3.takeWhile Char.isDigit
      if e.isEmpty then (false, [], r2) else (false, e, r3.dropWhile Char.isDigit)
    | _ => (false, [], r2)
  if expAndRest.2.2.isEmpty then
    some (numValue intPart frac expAndRest.1 expAndRest.2.1)
  else none

/-- `parse_gas_line(line)`: parse a gas report line
`| function name | gas value |`, tolerant of ANSI codes, one leading diff
marker and leading whitespace; the regex
`^\|\s*([^|]+?)\s*\|\s*(\d+(?:\.\d+)?(?:e[+-]?\d+)?)\s*\|` is translated
by cutting at the `|` delimiters: the first segment must be nonempty and
is stripped to give the name, the second must be a whitespace-padded
numeric token. -/
def parse_gas_line (l : List Char) : Option (List Char × ℚ) :=
  let clean := pyLstrip (dropMarker (pyLstrip (strip_ansi_codes l)))
  match clean with
  | '|' :: rest =>
    let seg1 := rest.takeWhile (fun c => c ≠ '|')
    match rest.dropWhile (fun c => c ≠ '|') with
    | '|' :: rest2 =>
      if seg1.isEmpty then none else
      let seg2 := rest2.takeWhile (fun c => c ≠ '|')
      match rest2.dropWhile (fun c => c ≠ '|') with
      | '|' :: _ =>
        match parseNum (pyStrip seg2) with
        | some q => some (pyStrip seg1, q)
        | none => none
      | _ => none
    | _ => none
  | _ => none

/-- Rational multiplication, phrased on numerators and denominators so
that it evaluates by kernel reduction (provably equal to `a * b`). -/
def qmul (a b : ℚ) : ℚ := mkRat (a.num * b.num) (a.den * b.den)

/-- Rational subtraction on numerators and denominators (provably equal
to `a - b`). -/
def qsub (a b : ℚ) : ℚ := mkRat (a.num * b.den - b.num * a.den) (a.den * b.den)

/-- Rational absolute value (provably equal to `|a|`). -/
def qabs (a : ℚ) : ℚ := if a < 0 then -a else a

/-- Rational maximum (provably equal to `max a b`). -/
def qmax (a b : ℚ) : ℚ := if a ≤ b then b else a

/-- `math.isclose(a, b, rel_tol=rel, abs_tol=abs)` on finite values:
`abs(a-b) <= max(rel_tol * max(abs(a), abs(b)), abs_tol)`. -/
def isclose (a b rel tol : ℚ) : Bool :=
  decide (qabs (qsub a b) ≤ qmax (qmul rel (qmax (qabs a) (qabs b))) tol)

/-- `compare_gas_lines(old_line, new_line, rel_tol, abs_tol)`: `true` if
the difference exceeds tolerance (line should be kept). -/
def compare_gas_lines (old_line new_line : List Char) (rel tol : ℚ) : Bool :=
  match parse_gas_line old_line, parse_gas_line new_line with
  | some (old_func, old_gas), some (new_func, new_gas) =>
    if old_func ≠ new_func then true
    else if !isclose old_gas new_gas rel tol then true
    else false
  | _, _ => true

/-- `pat` is a prefix of `l` (Boolean). -/
def leadsWith : List Char → List Char → Bool
  | [], _ => true
  | _ :: _, [] => false
  | p :: ps, c :: cs => p = c && leadsWith ps cs

/-- Search for `pat` occurring right after a whitespace character
(the `\s` alternative of `(^|\s)pat`). -/
def boundaryAux (pat : List Char) : List Char → Bool
  | [] => false
  | c :: rest => (pyWs c && leadsWith pat rest) || boundaryAux pat rest

/-- `re.search(r"(^|\s)" + pat, line)` for a literal pattern `pat`:
`pat` occurs at the start of the line or right after a whitespace
character. -/
def searchBoundary (pat : List Char) (l : List Char) : Bool :=
  leadsWith pat l || boundaryAux pat l

/-- The literal pattern `\x1b\[31m-` (red-coded minus). -/
def redMinusPat : List Char := ['\x1b', '[', '3', '1', 'm', '-']

/-- The literal pattern `\x1b\[32m\+` (green-coded plus). -/
def greenPlusPat : List Char := ['\x1b', '[', '3', '2', 'm', '+']

/-- `_is_minus(line)`. -/
def _is_minus (l : List Char) : Bool :=
  searchBoundary redMinusPat l || searchBoundary ['-', '|'] l ||
    (leadsWith ['-'] (pyLstrip l) && !leadsWith ['-', '-', '-'] (pyLstrip l))

/-- `_is_plus(line)`. -/
def _is_plus (l : List Char) : Bool :=
  searchBoundary greenPlusPat l || searchBoundary ['+', '|'] l ||
    (leadsWith ['+'] (pyLstrip l) && !leadsWith ['+', '+', '+'] (pyLstrip l))

/-- `_is_context_line(line)`: starts with a space and matches none of the
six inline minus/plus boundary patterns. -/
def _is_context_line (l : List Char) : Bool :=
  if l.isEmpty then false
  else if !leadsWith [' '] l then false
  else if searchBoundary redMinusPat l || searchBoundary ['-', '|'] l ||
      searchBoundary ['-'] l then false
  else if searchBoundary greenPlusPat l || searchBoundary ['+', '|'] l ||
      searchBoundary ['+'] l then false
  else true

/-- Scanner for `re.sub(r"^((?:\x1b\[[0-9;]*m)*)\+", r"\1 ", pl, count=1)`:
mode 0 expects `+` (success) or the start of an ANSI code, mode 1 has seen
ESC and expects `[`, mode 2 is inside the code body.  `acc` holds the
consumed prefix reversed; on success the `+` is replaced by a space and
the rest of the line kept. -/
def collapseAux : Nat → List Char → List Char → Option (List Char)
  | _, _, [] => none
  | 0, acc, c :: rest =>
    if c = '+' then some (acc.reverse ++ ' ' :: rest)
    else if c = '\x1b' then collapseAux 1 (c :: acc) rest
    else none
  | 1, acc, c :: rest =>
    if c = '[' then collapseAux 2 (c :: acc) rest else none
  | 2, acc, c :: rest =>
    if ansiBody c then collapseAux 2 (c :: acc) rest
    else if c = 'm' then collapseAux 0 (c :: acc) rest
    else none
  | _ + 3, _, _ => none

/-- The collapse transform applied to a within-tolerance `+` line: replace
the leading diff marker (after any ANSI color prefix) by a space; if the
pattern does not match, the line is returned unchanged (`re.sub` with no
match). -/
def collapsePlus (l : List Char) : List Char :=
  (collapseAux 0 [] l).getD l

/-! ## Chunk processing (`filter_colored_diff_lines`)

A chunk is a maximal run of removed/added lines, carried as a list of
`(original index, rstripped line)` pairs in input order.  The Python
dictionaries `minus_map`/`plus_map` (later writes to the same function
name overwrite earlier ones) are modelled by `getLast?` over the entries
of that side; the imperative `keep_map`/`skip_idx` emission is modelled
by `emitChunkLine`, which returns exactly the line the Python code emits
at a given chunk entry (`none` when the index is skipped or absent from
`keep_map`). -/

/-- The entry is a data row on the removed side
(`parsed is not None and _is_minus(l)`). -/
def dataMinus (e : Nat × List Char) : Bool :=
  (parse_gas_line e.2).isSome && _is_minus e.2

/-- The entry is a data row on the added side
(`parsed is not None and not _is_minus(l) and _is_plus(l)`; the `elif`
in the source makes the added side exclude removed lines). -/
def dataPlus (e : Nat × List Char) : Bool :=
  (parse_gas_line e.2).isSome && !_is_minus e.2 && _is_plus e.2

/-- Name of the data row, when the entry is one. -/
def entryName (e : Nat × List Char) : Option (List Char) :=
  (parse_gas_line e.2).map Prod.fst

/-- `minus_map[func]`: the last removed-side data row of the chunk with
this function name (dict writes overwrite). -/
def minusMap (chunk : List (Nat × List Char)) (f : List Char) :
    Option (Nat × List Char) :=
  (chunk.filter (fun e => dataMinus e && entryName e == some f)).getLast?

/-- `plus_map[func]`: the last added-side data row of the chunk with this
function name. -/
def plusMap (chunk : List (Nat × List Char)) (f : List Char) :
    Option (Nat × List Char) :=
  (chunk.filter (fun e => dataPlus e && entryName e == some f)).getLast?

/-- The entry is a non-data row on the removed side. -/
def ndMinus (e : Nat × List Char) : Bool :=
  (parse_gas_line e.2).isNone && _is_minus e.2

/-- The entry is a non-data row on the added side. -/
def ndPlus (e : Nat × List Char) : Bool :=
  (parse_gas_line e.2).isNone && !_is_minus e.2 && _is_plus e.2

/-- Normalized content of a non-data row: ANSI stripped, left-stripped,
one `+`/`-` marker dropped, left-stripped again (`norm` in the source). -/
def ndNorm (l : List Char) : List Char :=
  let s := pyLstrip (strip_ansi_codes l)
  match s with
  | c :: r => if c = '+' || c = '-' then pyLstrip r else c :: r
  | [] => []

/-- Length used for non-data pairing: `len(no_ansi)`, the length of the
ANSI-stripped line. -/
def ndLen (l : List Char) : Nat := (strip_ansi_codes l).length

/-- `for k, (pi, pl, plen) in enumerate(plus_list): ... if plen == mlen:
matched_plus_idx = k; break` — find the earliest position `≥ k₀` in the
remaining length list that is not yet used and has the wanted length. -/
def findMatchAux (used : List Nat) (m : Nat) : List Nat → Nat → Option Nat
  | [], _ => none
  | p :: ps, k =>
    if !used.contains k && p == m then some k
    else findMatchAux used m ps (k + 1)

/-- Earliest unused position in `pls` holding length `m`. -/
def findMatch (pls used : List Nat) (m : Nat) : Option Nat :=
  findMatchAux used m pls 0

/-- One step of the greedy matching loop over the removed-side lengths. -/
def greedyStep (pls : List Nat) (used : List Nat) (m : Nat) : List Nat :=
  match findMatch pls used m with
  | some k => used ++ [k]
  | none => used

/-- The set `used_plus` after the greedy loop: removed-side lengths are
processed in order of appearance, each claiming the earliest unused
added-side entry of equal length. -/
def greedyUsed (mls pls : List Nat) : List Nat :=
  mls.foldl (greedyStep pls) []

/-- All non-data added-side entries of the chunk with the given
normalized content, in order of appearance (`nd_plus[norm]`). -/
def ndPlusGroup (chunk : List (Nat × List Char)) (ν : List Char) :
    List (Nat × List Char) :=
  chunk.filter (fun e => ndPlus e && ndNorm e.2 == ν)

/-- All non-data removed-side lengths for the given normalized content,
in order of appearance (the `mlen`s of `nd_minus[norm]`). -/
def ndMinusLens (chunk : List (Nat × List Char)) (ν : List Char) : List Nat :=
  (chunk.filter (fun e => ndMinus e && ndNorm e.2 == ν)).map (fun e => ndLen e.2)

/-- Whether the non-data added-side entry at chunk index `idx` (with line
`l`) is dropped by the greedy equal-length de-duplication. -/
def ndPlusDropped (chunk : List (Nat × List Char)) (idx : Nat) (l : List Char) :
    Bool :=
  let ν := ndNorm l
  let pg := ndPlusGroup chunk ν
  let pls := pg.map (fun e => ndLen e.2)
  match pg.findIdx? (fun e => e.1 == idx) with
  | some k => (greedyUsed (ndMinusLens chunk ν) pls).contains k
  | none => false

/-- The line emitted for a chunk entry, or `none` when the Python code
drops it: `keep_map[idx]` when present and `idx ∉ skip_idx`.  Data rows:
only the last row per `(side, name)` is in the side's map; a paired row
keeps both lines when the tolerance is exceeded, and otherwise emits the
collapsed added line at the removed index while skipping the added index;
an unpaired map entry is kept.  Non-data rows: removed lines are always
kept, added lines unless greedily matched. -/
def emitChunkLine (chunk : List (Nat × List Char)) (rel tol : ℚ)
    (e : Nat × List Char) : Option (List Char) :=
  match parse_gas_line e.2 with
  | some (f, _) =>
    if _is_minus e.2 then
      match minusMap chunk f with
      | some (mi, ml) =>
        if mi = e.1 then
          match plusMap chunk f with
          | some (_, pl) =>
            if compare_gas_lines ml pl rel tol then some ml
            else some (collapsePlus pl)
          | none => some ml
        else none
      | none => none
    else if _is_plus e.2 then
      match plusMap chunk f with
      | some (pi, pl) =>
        if pi = e.1 then
          match minusMap chunk f with
          | some (_, ml) =>
            if compare_gas_lines ml pl rel tol then some pl
            else none
          | none => some pl
        else none
      | none => none
    else none
  | none =>
    if _is_minus e.2 then some e.2
    else if _is_plus e.2 then
      if ndPlusDropped chunk e.1 e.2 then none else some e.2
    else none

/-- Emit the chunk's lines in original order (ascending chunk index),
tagged with the index at which the Python code emits them. -/
def processChunk (chunk : List (Nat × List Char)) (rel tol : ℚ) :
    List (Nat × List Char) :=
  chunk.filterMap (fun e => (emitChunkLine chunk rel tol e).map (fun v => (e.1, v)))

/-- The chunk's contribution to `has_exceed`: a paired data row exceeding
tolerance, or a data row left unpaired on either side. -/
def chunkExceed (chunk : List (Nat × List Char)) (rel tol : ℚ) : Bool :=
  chunk.any (fun e =>
    match parse_gas_line e.2 with
    | some (f, _) =>
      if dataMinus e then
        match plusMap chunk f with
        | some (_, pl) =>
          match minusMap chunk f with
          | some (_, ml) => compare_gas_lines ml pl rel tol
          | none => false
        | none => true
      else if dataPlus e then (minusMap chunk f).isNone
      else false
    | none => false)

/-- A line belongs to a chunk when (after rstrip) it is a removed or an
added line: the condition of the inner collection loop. -/
def chunkPred (e : Nat × List Char) : Bool :=
  _is_minus (pyRstrip e.2) || _is_plus (pyRstrip e.2)

/-- The main loop of `filter_colored_diff_lines` over indexed lines,
with explicit fuel to make the recursion structural (the fuel is always
instantiated with the length of the list, which bounds the recursion
depth).  Returns the emitted `(index, line)` pairs and `has_exceed`. -/
def filterAux (rel tol : ℚ) : Nat → List (Nat × List Char) →
    List (Nat × List Char) × Bool
  | _, [] => ([], false)
  | 0, _ :: _ => ([], false)
  | fuel + 1, (i, l0) :: rest =>
    let line := pyRstrip l0
    if _is_context_line line then
      let r := filterAux rel tol fuel rest
      ((i, line) :: r.1, r.2)
    else if _is_minus line || _is_plus line then
      let chunk := (i, line) :: (rest.takeWhile chunkPred).map
        (fun e => (e.1, pyRstrip e.2))
      let r := filterAux rel tol fuel (rest.dropWhile chunkPred)
      (processChunk chunk rel tol ++ r.1, chunkExceed chunk rel tol || r.2)
    else
      let r := filterAux rel tol fuel rest
      ((i, line) :: r.1, r.2)

/-- The chunk decomposition performed by the same loop: the list of
chunks (indexed, rstripped) encountered in order. -/
def chunksAux : Nat → List (Nat × List Char) → List (List (Nat × List Char))
  | _, [] => []
  | 0, _ :: _ => []
  | fuel + 1, (i, l0) :: rest =>
    let line := pyRstrip l0
    if _is_context_line line then chunksAux fuel rest
    else if _is_minus line || _is_plus line then
      ((i, line) :: (rest.takeWhile chunkPred).map (fun e => (e.1, pyRstrip e.2)))
        :: chunksAux fuel (rest.dropWhile chunkPred)
    else chunksAux fuel rest

/-- `filter_colored_diff_lines`, instrumented with original indices. -/
def filterIndexed (lines : List (List Char)) (rel tol : ℚ) :
    List (Nat × List Char) × Bool :=
  filterAux rel tol lines.length lines.enum

/-- The chunk decomposition of an input line sequence. -/
def chunksOf (lines : List (List Char)) : List (List (Nat × List Char)) :=
  chunksAux lines.length lines.enum

/-- `filter_colored_diff_lines(diff_lines, rel_tol, abs_tol)`:
the filtered lines and the `has_exceed` flag. -/
def filter_colored_diff_lines (lines : List (List Char)) (rel tol : ℚ) :
    List (List Char) × Bool :=
  ((filterIndexed lines rel tol).1.map Prod.snd, (filterIndexed lines rel tol).2)

/-- The exit status of `main` on the given (newline-stripped raw) input
lines: `0` for empty input, otherwise `1` iff `has_exceed`.  `main`
rstrips each raw line before filtering. -/
def mainExitCode (lines : List (List Char)) (rel tol : ℚ) : Nat :=
  let diff := lines.map pyRstrip
  if diff.isEmpty then 0
  else if (filter_colored_diff_lines diff rel tol).2 then 1 else 0

/-! ## List helper lemmas -/

lemma getLast?_mem_of_eq_some {α : Type} {l : List α} {a : α}
    (h : l.getLast? = some a) : a ∈ l := by
  induction l with
  | nil => simp at h
  | cons x xs ih =>
    match xs, ih with
    | [], _ => simp_all
    | y :: ys, ih =>
      rw [List.getLast?_cons_cons] at h
      exact List.mem_cons_of_mem x (ih h)

lemma filter_ne_nil_of_mem {α : Type} {l : List α} {p : α → Bool} {a : α}
    (h : a ∈ l) (hp : p a = true) : l.filter p ≠ [] := by
  intro hnil
  rw [List.filter_eq_nil_iff] at hnil
  exact hnil a h hp

lemma mem_map_fst_iff_filter_ne_nil {α : Type} (l : List (Nat × α)) (i : Nat) :
    i ∈ l.map Prod.fst ↔ l.filter (fun y => y.1 == i) ≠ [] := by
  rw [List.mem_map]
  constructor
  · rintro ⟨y, hy, rfl⟩
    exact filter_ne_nil_of_mem hy (by simp)
  · intro h
    rw [ne_eq, List.filter_eq_nil_iff] at h
    push_neg at h
    obtain ⟨y, hy, hpy⟩ := h
    exact ⟨y, hy, by simpa using hpy⟩

lemma filterMap_keyed_filter_nil {α β : Type} (g : Nat × α → Option β) :
    ∀ (l : List (Nat × α)) (i : Nat), i ∉ l.map Prod.fst →
      (l.filterMap (fun x => (g x).map (fun v => (x.1, v)))).filter
        (fun y => y.1 == i) = [] := by
  intro l
  induction l with
  | nil => intro i _; rfl
  | cons x xs ih =>
    intro i hi
    rw [List.map_cons, List.mem_cons] at hi
    push_neg at hi
    rw [List.filterMap_cons]
    cases hg : g x with
    | none => exact ih i hi.2
    | some v =>
      rw [Option.map_some', List.filter_cons]
      have : ((x.1, v).1 == i) = false := by simpa using Ne.symm hi.1
      rw [this]
      simp only [Bool.false_eq_true, if_false]
      exact ih i hi.2

lemma filterMap_keyed_filter {α β : Type} (g : Nat × α → Option β) :
    ∀ (l : List (Nat × α)) (e : Nat × α), (l.map Prod.fst).Nodup → e ∈ l →
      (l.filterMap (fun x => (g x).map (fun v => (x.1, v)))).filter
        (fun y => y.1 == e.1)
        = (g e).elim [] (fun v => [(e.1, v)]) := by
  intro l
  induction l with
  | nil => intro e _ he; simp at he
  | cons x xs ih =>
    intro e hnd he
    rw [List.map_cons, List.nodup_cons] at hnd
    rw [List.filterMap_cons]
    rcases List.mem_cons.mp he with rfl | hex
    · cases hg : g e with
      | none =>
        have h0 := filterMap_keyed_filter_nil g xs e.1 hnd.1
        simpa [Option.elim] using h0
      | some v =>
        have h0 := filterMap_keyed_filter_nil g xs e.1 hnd.1
        simp [Option.elim, List.filter_cons, h0]
    · have hne : x.1 ≠ e.1 := by
        intro hxe
        exact hnd.1 (hxe ▸ List.mem_map_of_mem Prod.fst hex)
      cases hg : g x with
      | none => exact ih e hnd.2 hex
      | some v =>
        rw [Option.map_some', List.filter_cons]
        have hb : ((x.1, v).1 == e.1) = false := by simpa using hne
        rw [hb]
        simp only [Bool.false_eq_true, if_false]
        exact ih e hnd.2 hex

lemma filterMap_keyed_fst_sublist {α β : Type} (g : Nat × α → Option β)
    (l : List (Nat × α)) :
    List.Sublist ((l.filterMap (fun x => (g x).map (fun v => (x.1, v)))).map
      Prod.fst) (l.map Prod.fst) := by
  induction l with
  | nil => simp
  | cons x xs ih =>
    rw [List.filterMap_cons, List.map_cons]
    cases g x with
    | none => exact ih.cons x.1
    | some v =>
      rw [Option.map_some', List.map_cons]
      exact ih.cons₂ x.1

/-! ## Map / emission lemmas for chunks -/

lemma minusMap_mem {chunk : List (Nat × List Char)} {f : List Char}
    {e : Nat × List Char} (h : minusMap chunk f = some e) :
    e ∈ chunk ∧ dataMinus e = true ∧ entryName e = some f := by
  have hm := getLast?_mem_of_eq_some h
  rw [List.mem_filter] at hm
  have := hm.2
  rw [Bool.and_eq_true] at this
  exact ⟨hm.1, this.1, by simpa using this.2⟩

lemma plusMap_mem {chunk : List (Nat × List Char)} {f : List Char}
    {e : Nat × List Char} (h : plusMap chunk f = some e) :
    e ∈ chunk ∧ dataPlus e = true ∧ entryName e = some f := by
  have hm := getLast?_mem_of_eq_some h
  rw [List.mem_filter] at hm
  have := hm.2
  rw [Bool.and_eq_true] at this
  exact ⟨hm.1, this.1, by simpa using this.2⟩

lemma minusMap_eq_none_iff {chunk : List (Nat × List Char)} {f : List Char} :
    minusMap chunk f = none ↔
      ∀ e ∈ chunk, ¬(dataMinus e = true ∧ entryName e = some f) := by
  unfold minusMap
  rw [List.getLast?_eq_none_iff, List.filter_eq_nil_iff]
  constructor
  · intro h e he hc
    exact h e he (by rw [Bool.and_eq_true]; exact ⟨hc.1, by simpa using hc.2⟩)
  · intro h e he hp
    rw [Bool.and_eq_true] at hp
    exact h e he ⟨hp.1, by simpa using hp.2⟩

lemma plusMap_eq_none_iff {chunk : List (Nat × List Char)} {f : List Char} :
    plusMap chunk f = none ↔
      ∀ e ∈ chunk, ¬(dataPlus e = true ∧ entryName e = some f) := by
  unfold plusMap
  rw [List.getLast?_eq_none_iff, List.filter_eq_nil_iff]
  constructor
  · intro h e he hc
    exact h e he (by rw [Bool.and_eq_true]; exact ⟨hc.1, by simpa using hc.2⟩)
  · intro h e he hp
    rw [Bool.and_eq_true] at hp
    exact h e he ⟨hp.1, by simpa using hp.2⟩

lemma mem_processChunk_of_emit {chunk : List (Nat × List Char)} {rel tol : ℚ}
    {e : Nat × List Char} {v : List Char} (he : e ∈ chunk)
    (hv : emitChunkLine chunk rel tol e = some v) :
    (e.1, v) ∈ processChunk chunk rel tol := by
  unfold processChunk
  rw [List.mem_filterMap]
  exact ⟨e, he, by rw [hv]; rfl⟩

lemma processChunk_filter_eq {chunk : List (Nat × List Char)} {rel tol : ℚ}
    {e : Nat × List Char} (hnd : (chunk.map Prod.fst).Nodup) (he : e ∈ chunk) :
    (processChunk chunk rel tol).filter (fun y => y.1 == e.1)
      = (emitChunkLine chunk rel tol e).elim [] (fun v => [(e.1, v)]) := by
  unfold processChunk
  exact filterMap_keyed_filter (emitChunkLine chunk rel tol) chunk e hnd he

lemma mem_fst_processChunk_iff {chunk : List (Nat × List Char)} {rel tol : ℚ}
    {e : Nat × List Char} (hnd : (chunk.map Prod.fst).Nodup) (he : e ∈ chunk) :
    e.1 ∈ (processChunk chunk rel tol).map Prod.fst ↔
      (emitChunkLine chunk rel tol e).isSome := by
  rw [mem_map_fst_iff_filter_ne_nil, processChunk_filter_eq hnd he]
  cases emitChunkLine chunk rel tol e <;> simp

lemma entryName_some {e : Nat × List Char} {f : List Char}
    (h : entryName e = some f) : ∃ g, parse_gas_line e.2 = some (f, g) := by
  unfold entryName at h
  cases hp : parse_gas_line e.2 with
  | none => rw [hp] at h; simp at h
  | some p =>
    rw [hp] at h
    simp only [Option.map_some', Option.some.injEq] at h
    refine ⟨p.2, ?_⟩
    rw [← h]

lemma dataMinus_isMinus {e : Nat × List Char} (h : dataMinus e = true) :
    _is_minus e.2 = true := by
  unfold dataMinus at h
  rw [Bool.and_eq_true] at h
  exact h.2

lemma dataPlus_parts {e : Nat × List Char} (h : dataPlus e = true) :
    _is_minus e.2 = false ∧ _is_plus e.2 = true := by
  unfold dataPlus at h
  rw [Bool.and_eq_true, Bool.and_eq_true] at h
  exact ⟨by simpa using h.1.2, h.2⟩

lemma emit_minus_paired {chunk : List (Nat × List Char)} {rel tol : ℚ}
    {mi pi : Nat} {ml pl : List Char} {f : List Char} {g : ℚ}
    (hparse : parse_gas_line ml = some (f, g)) (hm : _is_minus ml = true)
    (hmm : minusMap chunk f = some (mi, ml))
    (hpm : plusMap chunk f = some (pi, pl)) :
    emitChunkLine chunk rel tol (mi, ml)
      = if compare_gas_lines ml pl rel tol then some ml
        else some (collapsePlus pl) := by
  simp [emitChunkLine, hparse, hm, hmm, hpm]

lemma emit_minus_singleton {chunk : List (Nat × List Char)} {rel tol : ℚ}
    {mi : Nat} {ml : List Char} {f : List Char} {g : ℚ}
    (hparse : parse_gas_line ml = some (f, g)) (hm : _is_minus ml = true)
    (hmm : minusMap chunk f = some (mi, ml))
    (hpm : plusMap chunk f = none) :
    emitChunkLine chunk rel tol (mi, ml) = some ml := by
  simp [emitChunkLine, hparse, hm, hmm, hpm]

lemma emit_plus_paired {chunk : List (Nat × List Char)} {rel tol : ℚ}
    {mi pi : Nat} {ml pl : List Char} {f : List Char} {g : ℚ}
    (hparse : parse_gas_line pl = some (f, g)) (hm : _is_minus pl = false)
    (hp : _is_plus pl = true)
    (hmm : minusMap chunk f = some (mi, ml))
    (hpm : plusMap chunk f = some (pi, pl)) :
    emitChunkLine chunk rel tol (pi, pl)
      = if compare_gas_lines ml pl rel tol then some pl else none := by
  simp [emitChunkLine, hparse, hm, hp, hmm, hpm]

lemma emit_plus_singleton {chunk : List (Nat × List Char)} {rel tol : ℚ}
    {pi : Nat} {pl : List Char} {f : List Char} {g : ℚ}
    (hparse : parse_gas_line pl = some (f, g)) (hm : _is_minus pl = false)
    (hp : _is_plus pl = true)
    (hpm : plusMap chunk f = some (pi, pl))
    (hmm : minusMap chunk f = none) :
    emitChunkLine chunk rel tol (pi, pl) = some pl := by
  simp [emitChunkLine, hparse, hm, hp, hmm, hpm]

/-! ## Arithmetic bridge lemmas -/

lemma qmul_eq (a b : ℚ) : qmul a b = a * b := by
  unfold qmul; rw [Rat.mul_def, Rat.normalize_eq_mkRat]

lemma qsub_eq (a b : ℚ) : qsub a b = a - b := by
  unfold qsub; rw [Rat.sub_def, Rat.normalize_eq_mkRat]

lemma qabs_eq (a : ℚ) : qabs a = |a| := by
  unfold qabs
  rcases lt_or_le a 0 with h | h
  · simp [abs_of_neg h, h]
  · simp [abs_of_nonneg h, not_lt.mpr h]

lemma qmax_eq (a b : ℚ) : qmax a b = max a b := (max_def a b).symm

/-- `isclose` agrees with the mathematical formula from the Python
documentation. -/
lemma isclose_iff (a b rel tol : ℚ) :
    isclose a b rel tol = true ↔ |a - b| ≤ max (rel * max |a| |b|) tol := by
  simp [isclose, qmul_eq, qsub_eq, qabs_eq, qmax_eq]

/-- The tolerance decision on two parsed rows with equal names: within
tolerance iff the absolute difference meets the relative or the absolute
bound. -/
lemma compare_eq_false_iff (old_line new_line : List Char) (rel tol : ℚ)
    (f : List Char) (a b : ℚ)
    (h1 : parse_gas_line old_line = some (f, a))
    (h2 : parse_gas_line new_line = some (f, b)) :
    compare_gas_lines old_line new_line rel tol = false ↔
      (|b - a| ≤ tol ∨ |b - a| ≤ rel * max |a| |b|) := by
  have hcmp : compare_gas_lines old_line new_line rel tol
      = !(isclose a b rel tol) := by
    cases hc : isclose a b rel tol <;> simp [compare_gas_lines, h1, h2, hc]
  rw [hcmp]
  have hnot : (!(isclose a b rel tol)) = false ↔ isclose a b rel tol = true := by
    cases isclose a b rel tol <;> simp
  rw [hnot, isclose_iff, le_max_iff, abs_sub_comm]
  tauto

/-- C1.  For lines parsing as gas rows with equal function names, the
decision is "within tolerance" iff `|new-old| <= abs_tol` or
`|new-old| <= rel_tol * max(|old|,|new|)` (OR semantics); otherwise it is
"exceeds". -/
theorem c1_tolerance_or_law (old_line new_line : List Char) (rel tol : ℚ)
    (f : List Char) (a b : ℚ)
    (h1 : parse_gas_line old_line = some (f, a))
    (h2 : parse_gas_line new_line = some (f, b)) :
    compare_gas_lines old_line new_line rel tol = false ↔
      (|b - a| ≤ tol ∨ |b - a| ≤ rel * max |a| |b|) :=
  compare_eq_false_iff old_line new_line rel tol f a b h1 h2

/-- Witness for C1 at a concrete within-tolerance pair. -/
theorem c1_tolerance_or_law_witness :
    compare_gas_lines ("-| f | 100 |".toList) ("+| f | 105 |".toList)
      (mkRat 1 100) 10 = false :=
  (c1_tolerance_or_law ("-| f | 100 |".toList) ("+| f | 105 |".toList)
      (mkRat 1 100) 10 ("f".toList) 100 105 (by decide) (by decide)).mpr
    (Or.inl (by rw [show (105 : ℚ) - 100 = 5 by norm_num]; norm_num [abs_le]))

/-- C2 counterexample: with old gas value `0`, new value `5` and the
default tolerances, the decider reports "within tolerance", so a zero
baseline does not always report "exceeds". -/
theorem c2_zero_old_counterexample :
    parse_gas_line ("-| f | 0 |".toList) = some ("f".toList, 0) ∧
    parse_gas_line ("+| f | 5 |".toList) = some ("f".toList, 5) ∧
    compare_gas_lines ("-| f | 0 |".toList) ("+| f | 5 |".toList)
      (mkRat 1 100) 10 = false :=
  ⟨by decide, by decide, by decide⟩

/-- C2 amended.  With a zero old value the decider reports "exceeds" iff
the new value violates both bounds: `abs_tol < |new|` and
`rel_tol * |new| < |new|`; in particular a new value within the absolute
tolerance is reported as within tolerance. -/
theorem c2_zero_old_amended (old_line new_line : List Char) (rel tol : ℚ)
    (f : List Char) (g : ℚ)
    (h1 : parse_gas_line old_line = some (f, 0))
    (h2 : parse_gas_line new_line = some (f, g)) :
    compare_gas_lines old_line new_line rel tol = true ↔
      (tol < |g| ∧ rel * |g| < |g|) := by
  rw [← Bool.not_eq_false, compare_eq_false_iff old_line new_line rel tol f 0 g h1 h2]
  rw [sub_zero, abs_zero]
  rw [max_eq_right (abs_nonneg g)]
  push_neg
  tauto

/-- Witness for C2 amended at a concrete exceeding input. -/
theorem c2_zero_old_amended_witness :
    compare_gas_lines ("-| f | 0 |".toList) ("+| f | 50 |".toList)
      (mkRat 1 100) 10 = true :=
  (c2_zero_old_amended ("-| f | 0 |".toList) ("+| f | 50 |".toList)
      (mkRat 1 100) 10 ("f".toList) 50 (by decide) (by decide)).mpr
    (by constructor
        · rw [show |(50 : ℚ)| = 50 by rw [abs_of_nonneg]; norm_num]; norm_num
        · rw [show |(50 : ℚ)| = 50 by rw [abs_of_nonneg]; norm_num]
          rw [show (mkRat 1 100 : ℚ) = 1 / 100 by norm_num [mkRat, Rat.normalize]]
          norm_num)

/-- C8.  The filter is not idempotent on its own within-tolerance output:
an added data line whose diff marker is preceded by a space before the
ANSI color code is recognized as added by the classifier, but the
collapse substitution (anchored at the line start) leaves it unchanged,
so the first run exits clean while a second run reports the same line as
an added singleton exceeding tolerance. -/
theorem c8_not_idempotent_on_clean_output :
    filter_colored_diff_lines ["-| f | 5 |".toList, " \x1b[32m+| f | 5 |".toList]
      (mkRat 1 100) 10 = ([" \x1b[32m+| f | 5 |".toList], false) ∧
    filter_colored_diff_lines [" \x1b[32m+| f | 5 |".toList]
      (mkRat 1 100) 10 = ([" \x1b[32m+| f | 5 |".toList], true) :=
  ⟨by decide, by decide⟩

/-- C4 counterexample: a chunk of two removed-side data rows sharing the
function name `f` (no added-side counterpart).  The first row is a
one-sided data row, yet the output drops it: the later dict write
overwrites the earlier row, so only `-| f | 2 |` is emitted (the verdict
is still "exceeded"). -/
theorem c4_duplicate_name_counterexample :
    dataMinus (0, "-| f | 1 |".toList) = true ∧
    entryName (0, "-| f | 1 |".toList) = some ("f".toList) ∧
    filter_colored_diff_lines ["-| f | 1 |".toList, "-| f | 2 |".toList]
      (mkRat 1 100) 10 = (["-| f | 2 |".toList], true) :=
  ⟨by decide, by decide, by decide⟩

/-- C4 amended.  Every data row that is the last row with its function
name on its side of the chunk and whose name has no counterpart on the
other side is emitted unchanged and sets the overall verdict to
"exceeded"; earlier same-side rows with a duplicated name are overwritten
and dropped. -/
theorem c4_structural_visibility (chunk : List (Nat × List Char))
    (rel tol : ℚ) (e : Nat × List Char) (f : List Char)
    (hname : entryName e = some f)
    (hside :
      (dataMinus e = true ∧ minusMap chunk f = some e ∧ plusMap chunk f = none) ∨
      (dataPlus e = true ∧ plusMap chunk f = some e ∧ minusMap chunk f = none)) :
    e ∈ processChunk chunk rel tol ∧ chunkExceed chunk rel tol = true := by
  obtain ⟨g, hparse⟩ := entryName_some hname
  rcases hside with ⟨hdm, hmm, hpm⟩ | ⟨hdp, hpm, hmm⟩
  · have he : e ∈ chunk := (minusMap_mem hmm).1
    have hemit : emitChunkLine chunk rel tol (e.1, e.2) = some e.2 :=
      emit_minus_singleton hparse (dataMinus_isMinus hdm) hmm hpm
    constructor
    · exact mem_processChunk_of_emit he hemit
    · rw [chunkExceed, List.any_eq_true]
      refine ⟨e, he, ?_⟩
      simp [hparse, hdm, hpm]
  · obtain ⟨hm, hp⟩ := dataPlus_parts hdp
    have he : e ∈ chunk := (plusMap_mem hpm).1
    have hdm : dataMinus e = false := by
      unfold dataMinus
      rw [hm, Bool.and_false]
    have hemit : emitChunkLine chunk rel tol (e.1, e.2) = some e.2 :=
      emit_plus_singleton hparse hm hp hpm hmm
    constructor
    · exact mem_processChunk_of_emit he hemit
    · rw [chunkExceed, List.any_eq_true]
      refine ⟨e, he, ?_⟩
      simp [hparse, hdm, hdp, hmm]

/-- Witness for C4 amended: a lone removed-side data row is kept and
flags "exceeds". -/
theorem c4_structural_visibility_witness :
    (0, "-| g | 500 |".toList) ∈
      processChunk [(0, "-| g | 500 |".toList)] (mkRat 1 100) 10 ∧
    chunkExceed [(0, "-| g | 500 |".toList)] (mkRat 1 100) 10 = true :=
  c4_structural_visibility [(0, "-| g | 500 |".toList)] (mkRat 1 100) 10
    (0, "-| g | 500 |".toList) ("g".toList) (by decide)
    (Or.inl ⟨by decide, by decide, by decide⟩)

/-- C5.  A within-tolerance pair produces exactly one output line, at the
removed line's index, whose text is the added line with its leading diff
marker (after any ANSI prefix) replaced by a space; nothing is emitted at
the added line's index. -/
theorem c5_collapse_single_line (chunk : List (Nat × List Char))
    (rel tol : ℚ) (f : List Char) (mi pi : Nat) (ml pl : List Char)
    (hnd : (chunk.map Prod.fst).Nodup)
    (hmm : minusMap chunk f = some (mi, ml))
    (hpm : plusMap chunk f = some (pi, pl))
    (hcmp : compare_gas_lines ml pl rel tol = false) :
    (processChunk chunk rel tol).filter (fun y => y.1 == mi)
        = [(mi, collapsePlus pl)] ∧
    (processChunk chunk rel tol).filter (fun y => y.1 == pi) = [] := by
  obtain ⟨hmem, hdm, hmname⟩ := minusMap_mem hmm
  obtain ⟨hpmem, hdp, hpname⟩ := plusMap_mem hpm
  obtain ⟨g, hparse⟩ := entryName_some hmname
  obtain ⟨g', hparse'⟩ := entryName_some hpname
  obtain ⟨hm', hp'⟩ := dataPlus_parts hdp
  constructor
  · have h := @processChunk_filter_eq chunk rel tol (mi, ml) hnd hmem
    rw [emit_minus_paired hparse (dataMinus_isMinus hdm) hmm hpm, hcmp] at h
    simpa [Option.elim] using h
  · have h := @processChunk_filter_eq chunk rel tol (pi, pl) hnd hpmem
    rw [emit_plus_paired hparse' hm' hp' hmm hpm, hcmp] at h
    simpa [Option.elim] using h

/-! ## Step equations for the main loop -/

lemma filterAux_cons_context {rel tol : ℚ} {fuel : Nat} {i : Nat}
    {l0 : List Char} {rest : List (Nat × List Char)}
    (h : _is_context_line (pyRstrip l0) = true) :
    filterAux rel tol (fuel + 1) ((i, l0) :: rest) =
      ((i, pyRstrip l0) :: (filterAux rel tol fuel rest).1,
        (filterAux rel tol fuel rest).2) := by
  simp [filterAux, h]

lemma filterAux_cons_chunk {rel tol : ℚ} {fuel : Nat} {i : Nat}
    {l0 : List Char} {rest : List (Nat × List Char)}
    (h : _is_context_line (pyRstrip l0) = false)
    (h2 : (_is_minus (pyRstrip l0) || _is_plus (pyRstrip l0)) = true) :
    filterAux rel tol (fuel + 1) ((i, l0) :: rest) =
      (processChunk ((i, pyRstrip l0) ::
          (rest.takeWhile chunkPred).map (fun e => (e.1, pyRstrip e.2))) rel tol
        ++ (filterAux rel tol fuel (rest.dropWhile chunkPred)).1,
       chunkExceed ((i, pyRstrip l0) ::
          (rest.takeWhile chunkPred).map (fun e => (e.1, pyRstrip e.2))) rel tol
        || (filterAux rel tol fuel (rest.dropWhile chunkPred)).2) := by
  simp [filterAux, h, h2]

lemma filterAux_cons_other {rel tol : ℚ} {fuel : Nat} {i : Nat}
    {l0 : List Char} {rest : List (Nat × List Char)}
    (h : _is_context_line (pyRstrip l0) = false)
    (h2 : (_is_minus (pyRstrip l0) || _is_plus (pyRstrip l0)) = false) :
    filterAux rel tol (fuel + 1) ((i, l0) :: rest) =
      ((i, pyRstrip l0) :: (filterAux rel tol fuel rest).1,
        (filterAux rel tol fuel rest).2) := by
  simp [filterAux, h, h2]

/-! ## Output order (C9) -/

lemma processChunk_fst_sublist (chunk : List (Nat × List Char)) (rel tol : ℚ) :
    List.Sublist ((processChunk chunk rel tol).map Prod.fst)
      (chunk.map Prod.fst) := by
  unfold processChunk
  exact filterMap_keyed_fst_sublist (emitChunkLine chunk rel tol) chunk

lemma map_fst_rstrip (l : List (Nat × List Char)) :
    ((l.map (fun e => (e.1, pyRstrip e.2))).map Prod.fst) = l.map Prod.fst := by
  rw [List.map_map]; rfl

lemma filterAux_fst (rel tol : ℚ) :
    ∀ (fuel : Nat) (l : List (Nat × List Char)),
      (l.map Prod.fst).Pairwise (· < ·) →
      ((filterAux rel tol fuel l).1.map Prod.fst).Pairwise (· < ·) ∧
      ((filterAux rel tol fuel l).1.map Prod.fst) ⊆ l.map Prod.fst := by
  intro fuel
  induction fuel with
  | zero =>
    intro l hp
    cases l with
    | nil => simp [filterAux]
    | cons x xs => simp [filterAux]
  | succ fuel ih =>
    intro l hp
    cases l with
    | nil => simp [filterAux]
    | cons x xs =>
      obtain ⟨i, l0⟩ := x
      rw [List.map_cons, List.pairwise_cons] at hp
      obtain ⟨hilt, hxs⟩ := hp
      by_cases hctx : _is_context_line (pyRstrip l0) = true
      · rw [filterAux_cons_context hctx]
        obtain ⟨ih1, ih2⟩ := ih xs hxs
        constructor
        · rw [List.map_cons, List.pairwise_cons]
          exact ⟨fun j hj => hilt j (ih2 hj), ih1⟩
        · rw [List.map_cons]
          intro a ha
          rcases List.mem_cons.mp ha with rfl | ha
          · exact List.mem_cons_self _ _
          · exact List.mem_cons_of_mem _ (ih2 ha)
      · rw [Bool.not_eq_true] at hctx
        by_cases hmp : (_is_minus (pyRstrip l0) || _is_plus (pyRstrip l0)) = true
        · rw [filterAux_cons_chunk hctx hmp]
          have htw : List.Sublist ((xs.takeWhile chunkPred).map Prod.fst)
              (xs.map Prod.fst) := (List.takeWhile_sublist _).map Prod.fst
          have hdw : List.Sublist ((xs.dropWhile chunkPred).map Prod.fst)
              (xs.map Prod.fst) := (List.dropWhile_sublist _).map Prod.fst
          have hchunkfst : (((i, pyRstrip l0) ::
              (xs.takeWhile chunkPred).map (fun e => (e.1, pyRstrip e.2))).map
                Prod.fst)
              = i :: (xs.takeWhile chunkPred).map Prod.fst := by
            rw [List.map_cons, map_fst_rstrip]
          have hpchunk : ((((i, pyRstrip l0)) ::
              (xs.takeWhile chunkPred).map (fun e => (e.1, pyRstrip e.2))).map
                Prod.fst).Pairwise (· < ·) := by
            rw [hchunkfst, List.pairwise_cons]
            exact ⟨fun j hj => hilt j (htw.subset hj), hxs.sublist htw⟩
          have hdp : ((xs.dropWhile chunkPred).map Prod.fst).Pairwise (· < ·) :=
            hxs.sublist hdw
          obtain ⟨ih1, ih2⟩ := ih (xs.dropWhile chunkPred) hdp
          have hA := processChunk_fst_sublist ((i, pyRstrip l0) ::
            (xs.takeWhile chunkPred).map (fun e => (e.1, pyRstrip e.2))) rel tol
          have hsplit : xs.map Prod.fst
              = (xs.takeWhile chunkPred).map Prod.fst
                ++ (xs.dropWhile chunkPred).map Prod.fst := by
            rw [← List.map_append, List.takeWhile_append_dropWhile]
          have hcross := (List.pairwise_append.mp (hsplit ▸ hxs)).2.2
          constructor
          · rw [List.map_append, List.pairwise_append]
            refine ⟨hpchunk.sublist hA, ih1, ?_⟩
            intro a ha b hb
            have ha' := hA.subset ha
            rw [hchunkfst] at ha'
            have hb' := ih2 hb
            rcases List.mem_cons.mp ha' with rfl | ha''
            · exact hilt b (hdw.subset hb')
            · exact hcross a ha'' b hb'
          · rw [List.map_append, List.map_cons]
            intro a ha
            rcases List.mem_append.mp ha with ha | ha
            · have ha' := hA.subset ha
              rw [hchunkfst] at ha'
              rcases List.mem_cons.mp ha' with rfl | ha''
              · exact List.mem_cons_self _ _
              · exact List.mem_cons_of_mem _ (htw.subset ha'')
            · exact List.mem_cons_of_mem _ (hdw.subset (ih2 ha))
        · rw [Bool.not_eq_true] at hmp
          rw [filterAux_cons_other hctx hmp]
          obtain ⟨ih1, ih2⟩ := ih xs hxs
          constructor
          · rw [List.map_cons, List.pairwise_cons]
            exact ⟨fun j hj => hilt j (ih2 hj), ih1⟩
          · rw [List.map_cons]
            intro a ha
            rcases List.mem_cons.mp ha with rfl | ha
            · exact List.mem_cons_self _ _
            · exact List.mem_cons_of_mem _ (ih2 ha)

/-! ## Exit status (C3) -/

lemma chunksAux_cons_context {fuel : Nat} {i : Nat} {l0 : List Char}
    {rest : List (Nat × List Char)}
    (h : _is_context_line (pyRstrip l0) = true) :
    chunksAux (fuel + 1) ((i, l0) :: rest) = chunksAux fuel rest := by
  simp [chunksAux, h]

lemma chunksAux_cons_chunk {fuel : Nat} {i : Nat} {l0 : List Char}
    {rest : List (Nat × List Char)}
    (h : _is_context_line (pyRstrip l0) = false)
    (h2 : (_is_minus (pyRstrip l0) || _is_plus (pyRstrip l0)) = true) :
    chunksAux (fuel + 1) ((i, l0) :: rest) =
      ((i, pyRstrip l0) ::
        (rest.takeWhile chunkPred).map (fun e => (e.1, pyRstrip e.2)))
        :: chunksAux fuel (rest.dropWhile chunkPred) := by
  simp [chunksAux, h, h2]

lemma chunksAux_cons_other {fuel : Nat} {i : Nat} {l0 : List Char}
    {rest : List (Nat × List Char)}
    (h : _is_context_line (pyRstrip l0) = false)
    (h2 : (_is_minus (pyRstrip l0) || _is_plus (pyRstrip l0)) = false) :
    chunksAux (fuel + 1) ((i, l0) :: rest) = chunksAux fuel rest := by
  simp [chunksAux, h, h2]

/-- The `has_exceed` flag accumulated by the loop is the disjunction of
the per-chunk flags over the chunk decomposition. -/
lemma filterAux_snd_eq (rel tol : ℚ) :
    ∀ (fuel : Nat) (l : List (Nat × List Char)), l.length ≤ fuel →
      (filterAux rel tol fuel l).2
        = (chunksAux fuel l).any (fun c => chunkExceed c rel tol) := by
  intro fuel
  induction fuel with
  | zero =>
    intro l hl
    cases l with
    | nil => simp [filterAux, chunksAux]
    | cons x xs => simp at hl
  | succ fuel ih =>
    intro l hl
    cases l with
    | nil => simp [filterAux, chunksAux]
    | cons x xs =>
      obtain ⟨i, l0⟩ := x
      rw [List.length_cons, Nat.succ_le_succ_iff] at hl
      by_cases hctx : _is_context_line (pyRstrip l0) = true
      · rw [filterAux_cons_context hctx, chunksAux_cons_context hctx]
        exact ih xs hl
      · rw [Bool.not_eq_true] at hctx
        by_cases hmp : (_is_minus (pyRstrip l0) || _is_plus (pyRstrip l0)) = true
        · rw [filterAux_cons_chunk hctx hmp, chunksAux_cons_chunk hctx hmp,
            List.any_cons]
          have hdl : (xs.dropWhile chunkPred).length ≤ fuel :=
            le_trans (List.dropWhile_sublist chunkPred).length_le hl
          rw [ih (xs.dropWhile chunkPred) hdl]
        · rw [Bool.not_eq_true] at hmp
          rw [filterAux_cons_other hctx hmp, chunksAux_cons_other hctx hmp]
          exact ih xs hl

/-- The declarative reading of the per-chunk `has_exceed` flag: a paired
data row (the pairing is by the side maps, i.e. the last row per side and
name) decided "exceeds", or a data row whose function name has no
data-row counterpart on the other side of the chunk. -/
def ChunkViolation (chunk : List (Nat × List Char)) (rel tol : ℚ) : Prop :=
  (∃ f mi ml pi pl, minusMap chunk f = some (mi, ml) ∧
      plusMap chunk f = some (pi, pl) ∧
      compare_gas_lines ml pl rel tol = true)
  ∨ (∃ e ∈ chunk, ∃ f, entryName e = some f ∧
      ((dataMinus e = true ∧
          ¬∃ e' ∈ chunk, dataPlus e' = true ∧ entryName e' = some f)
        ∨ (dataPlus e = true ∧
          ¬∃ e' ∈ chunk, dataMinus e' = true ∧ entryName e' = some f)))

lemma chunkExceed_iff (chunk : List (Nat × List Char)) (rel tol : ℚ) :
    chunkExceed chunk rel tol = true ↔ ChunkViolation chunk rel tol := by
  rw [chunkExceed, List.any_eq_true]
  constructor
  · rintro ⟨e, he, hpred⟩
    cases hparse : parse_gas_line e.2 with
    | none =>
      simp only [hparse] at hpred
      exact absurd hpred (by decide)
    | some p =>
      obtain ⟨f, g⟩ := p
      simp only [hparse] at hpred
      have hname : entryName e = some f := by
        unfold entryName; rw [hparse]; rfl
      by_cases hdm : dataMinus e = true
      · simp only [hdm, if_true] at hpred
        cases hpm : plusMap chunk f with
        | some q =>
          obtain ⟨pi, pl⟩ := q
          simp only [hpm] at hpred
          cases hmm : minusMap chunk f with
          | some r =>
            obtain ⟨mi, ml⟩ := r
            simp only [hmm] at hpred
            exact Or.inl ⟨f, mi, ml, pi, pl, hmm, hpm, hpred⟩
          | none =>
            simp only [hmm] at hpred
            exact absurd hpred (by decide)
        | none =>
          refine Or.inr ⟨e, he, f, hname, Or.inl ⟨hdm, ?_⟩⟩
          rintro ⟨e', he', hdp', hname'⟩
          exact (plusMap_eq_none_iff.mp hpm) e' he' ⟨hdp', hname'⟩
      · rw [Bool.not_eq_true] at hdm
        simp only [hdm, Bool.false_eq_true, if_false] at hpred
        by_cases hdp : dataPlus e = true
        · simp only [hdp, if_true, Option.isNone_iff_eq_none] at hpred
          refine Or.inr ⟨e, he, f, hname, Or.inr ⟨hdp, ?_⟩⟩
          rintro ⟨e', he', hdm', hname'⟩
          exact (minusMap_eq_none_iff.mp hpred) e' he' ⟨hdm', hname'⟩
        · rw [Bool.not_eq_true] at hdp
          simp only [hdp, Bool.false_eq_true, if_false] at hpred
  · intro hv
    rcases hv with ⟨f, mi, ml, pi, pl, hmm, hpm, hcmp⟩ |
        ⟨e, he, f, hname, hcase⟩
    · obtain ⟨hmem, hdm, hmname⟩ := minusMap_mem hmm
      obtain ⟨g, hparse⟩ := entryName_some hmname
      refine ⟨(mi, ml), hmem, ?_⟩
      simp only [hparse, hdm, if_true, hpm, hmm]
      exact hcmp
    · rcases hcase with ⟨hdm, hnone⟩ | ⟨hdp, hnone⟩
      · obtain ⟨g, hparse⟩ := entryName_some hname
        have hpm : plusMap chunk f = none := by
          rw [plusMap_eq_none_iff]
          intro e' he' hc
          exact hnone ⟨e', he', hc.1, hc.2⟩
        refine ⟨e, he, ?_⟩
        simp only [hparse, hdm, if_true, hpm]
      · obtain ⟨g, hparse⟩ := entryName_some hname
        have hmm : minusMap chunk f = none := by
          rw [minusMap_eq_none_iff]
          intro e' he' hc
          exact hnone ⟨e', he', hc.1, hc.2⟩
        have hdmf : dataMinus e = false := by
          unfold dataMinus
          rw [(dataPlus_parts hdp).1, Bool.and_false]
        refine ⟨e, he, ?_⟩
        simp only [hparse, hdmf, Bool.false_eq_true, if_false, hdp, if_true,
          hmm, Option.isNone_none]

/-- C3.  The program exits with status `1` iff some chunk of the input
contains a paired data row decided "exceeds tolerance" or a data row with
no same-name data-row counterpart on the other side; unparseable rows
alone never cause exit `1`, and the exit status is `0` otherwise
(including empty input). -/
theorem c3_exit_status_iff (lines : List (List Char)) (rel tol : ℚ) :
    mainExitCode lines rel tol = 1 ↔
      ∃ chunk ∈ chunksOf (lines.map pyRstrip), ChunkViolation chunk rel tol := by
  unfold mainExitCode
  cases hl : lines with
  | nil =>
    simp [chunksOf, chunksAux]
  | cons x xs =>
    have hne : ((x :: xs).map pyRstrip).isEmpty = false := by simp
    simp only [hne, Bool.false_eq_true, if_false]
    rw [filter_colored_diff_lines]
    unfold filterIndexed
    have hlen : ((x :: xs).map pyRstrip).enum.length
        ≤ ((x :: xs).map pyRstrip).length := by
      rw [List.enum_length]
    rw [filterAux_snd_eq rel tol _ _ hlen]
    rw [chunksOf]
    constructor
    · intro h
      by_cases hb : (chunksAux ((x :: xs).map pyRstrip).length
          ((x :: xs).map pyRstrip).enum).any
            (fun c => chunkExceed c rel tol) = true
      · rw [List.any_eq_true] at hb
        obtain ⟨c, hc, hce⟩ := hb
        exact ⟨c, hc, (chunkExceed_iff c rel tol).mp hce⟩
      · rw [Bool.not_eq_true] at hb
        rw [hb] at h
        simp at h
    · rintro ⟨c, hc, hv⟩
      have : (chunksAux ((x :: xs).map pyRstrip).length
          ((x :: xs).map pyRstrip).enum).any
            (fun c => chunkExceed c rel tol) = true := by
        rw [List.any_eq_true]
        exact ⟨c, hc, (chunkExceed_iff c rel tol).mpr hv⟩
      rw [this]
      simp

/-- C9.  The emitted lines carry strictly increasing original input
indices: within every chunk the output is in ascending original-index
order (a collapsed pair sits at the removed line's index), and chunks and
non-chunk lines appear in input order. -/
theorem c9_output_order (lines : List (List Char)) (rel tol : ℚ) :
    ((filterIndexed lines rel tol).1.map Prod.fst).Pairwise (· < ·) := by
  unfold filterIndexed
  refine (filterAux_fst rel tol lines.length lines.enum ?_).1
  rw [List.enum_map_fst]
  exact List.pairwise_lt_range _

/-- Witness for C5 at a concrete within-tolerance chunk. -/
theorem c5_collapse_single_line_witness :
    (processChunk [(0, "-| f | 100 |".toList), (1, "+| f | 101 |".toList)]
        (mkRat 1 100) 10).filter (fun y => y.1 == 0)
      = [(0, collapsePlus ("+| f | 101 |".toList))] ∧
    (processChunk [(0, "-| f | 100 |".toList), (1, "+| f | 101 |".toList)]
        (mkRat 1 100) 10).filter (fun y => y.1 == 1) = [] :=
  c5_collapse_single_line
    [(0, "-| f | 100 |".toList), (1, "+| f | 101 |".toList)]
    (mkRat 1 100) 10 ("f".toList) 0 1
    ("-| f | 100 |".toList) ("+| f | 101 |".toList)
    (by decide) (by decide) (by decide) (by decide)

/-! ## Trailing whitespace stripping (C10) -/

lemma dropWhile_dropWhile {p : Char → Bool} (l : List Char) :
    (l.dropWhile p).dropWhile p = l.dropWhile p := by
  induction l with
  | nil => rfl
  | cons c cs ih =>
    rw [List.dropWhile_cons]
    by_cases hp : p c = true
    · simp only [hp, if_true]
      exact ih
    · rw [Bool.not_eq_true] at hp
      simp only [hp, Bool.false_eq_true, if_false]
      rw [List.dropWhile_cons]
      simp only [hp, Bool.false_eq_true, if_false]

lemma pyRstrip_idem (l : List Char) : pyRstrip (pyRstrip l) = pyRstrip l := by
  unfold pyRstrip
  rw [List.reverse_reverse, dropWhile_dropWhile]

lemma dropWhile_eq_self_head {p : Char → Bool} {l : List Char} :
    l.dropWhile p = l ↔ ∀ c, l.head? = some c → p c = false := by
  cases l with
  | nil => simp
  | cons c cs =>
    simp only [List.head?_cons]
    constructor
    · intro h d hd
      injection hd with hd
      subst hd
      by_contra hp
      rw [Bool.not_eq_false] at hp
      rw [List.dropWhile_cons, if_pos hp] at h
      have h2 : (cs.dropWhile p).length ≤ cs.length :=
        (List.dropWhile_sublist p).length_le
      have h3 := congrArg List.length h
      rw [List.length_cons] at h3
      omega
    · intro h
      have hc := h c rfl
      rw [List.dropWhile_cons, hc]
      simp

lemma rstrip_fixed_iff {l : List Char} :
    pyRstrip l = l ↔ ∀ c, l.getLast? = some c → pyWs c = false := by
  unfold pyRstrip
  constructor
  · intro h c hc
    have h2 : l.reverse.dropWhile pyWs = l.reverse := by
      have := congrArg List.reverse h
      rwa [List.reverse_reverse] at this
    rw [dropWhile_eq_self_head] at h2
    exact h2 c (by rwa [List.head?_reverse])
  · intro h
    have h2 : l.reverse.dropWhile pyWs = l.reverse := by
      rw [dropWhile_eq_self_head]
      intro c hc
      exact h c (by rwa [List.head?_reverse] at hc)
    rw [h2, List.reverse_reverse]

/-- Step equations for the two scanners, with character-class conditions
evaluated. -/
lemma collapseAux_zero_plus (acc cs : List Char) :
    collapseAux 0 acc ('+' :: cs) = some (acc.reverse ++ ' ' :: cs) := by
  simp [collapseAux]

lemma collapseAux_zero_esc (acc cs : List Char) :
    collapseAux 0 acc ('\x1b' :: cs) = collapseAux 1 ('\x1b' :: acc) cs := by
  simp [collapseAux]

lemma collapseAux_zero_other {c : Char} (acc cs : List Char)
    (h1 : c ≠ '+') (h2 : c ≠ '\x1b') : collapseAux 0 acc (c :: cs) = none := by
  simp [collapseAux, h1, h2]

lemma collapseAux_one_lb (acc cs : List Char) :
    collapseAux 1 acc ('[' :: cs) = collapseAux 2 ('[' :: acc) cs := by
  simp [collapseAux]

lemma collapseAux_one_other {c : Char} (acc cs : List Char) (h : c ≠ '[') :
    collapseAux 1 acc (c :: cs) = none := by
  simp [collapseAux, h]

lemma collapseAux_two_body {c : Char} (acc cs : List Char)
    (h : ansiBody c = true) :
    collapseAux 2 acc (c :: cs) = collapseAux 2 (c :: acc) cs := by
  simp [collapseAux, h]

lemma collapseAux_two_m (acc cs : List Char) :
    collapseAux 2 acc ('m' :: cs) = collapseAux 0 ('m' :: acc) cs := by
  have h : ansiBody 'm' = false := by decide
  simp [collapseAux, h]

lemma collapseAux_two_other {c : Char} (acc cs : List Char)
    (h1 : ansiBody c = false) (h2 : c ≠ 'm') :
    collapseAux 2 acc (c :: cs) = none := by
  simp [collapseAux, h1, h2]

lemma stripAnsiAux_zero_notEsc {c : Char} (buf rest : List Char)
    (h : c ≠ '\x1b') :
    stripAnsiAux 0 buf (c :: rest) = c :: stripAnsiAux 0 [] rest := by
  simp [stripAnsiAux, h]

lemma stripAnsiAux_zero_esc (buf rest : List Char) :
    stripAnsiAux 0 buf ('\x1b' :: rest) = stripAnsiAux 1 [] rest := by
  simp [stripAnsiAux]

lemma stripAnsiAux_one_lb (buf rest : List Char) :
    stripAnsiAux 1 buf ('[' :: rest) = stripAnsiAux 2 [] rest := by
  simp [stripAnsiAux]

lemma stripAnsiAux_two_body {c : Char} (buf rest : List Char)
    (h : ansiBody c = true) :
    stripAnsiAux 2 buf (c :: rest) = stripAnsiAux 2 (c :: buf) rest := by
  simp [stripAnsiAux, h]

lemma stripAnsiAux_two_m (buf rest : List Char) :
    stripAnsiAux 2 buf ('m' :: rest) = stripAnsiAux 0 [] rest := by
  have h : ansiBody 'm' = false := by decide
  simp [stripAnsiAux, h]

/-- Structure of a successful collapse: the line splits as an ANSI prefix,
the `+`, and a tail; the result replaces the `+` by a space, and ANSI
stripping sees exactly `+` followed by the stripped tail. -/
lemma collapseAux_some_spec :
    ∀ (l : List Char) (m : Nat) (acc r : List Char),
      collapseAux m acc l = some r →
      ∃ pre rest, l = pre ++ '+' :: rest ∧
        r = acc.reverse ++ pre ++ ' ' :: rest ∧
        (∀ buf, stripAnsiAux m buf (pre ++ '+' :: rest)
          = '+' :: strip_ansi_codes rest) := by
  intro l
  induction l with
  | nil =>
    intro m acc r h
    match m with
    | 0 => simp [collapseAux] at h
    | 1 => simp [collapseAux] at h
    | 2 => simp [collapseAux] at h
    | n + 3 => simp [collapseAux] at h
  | cons c cs ih =>
    intro m acc r h
    match m with
    | 0 =>
      by_cases hc : c = '+'
      · subst hc
        rw [collapseAux_zero_plus, Option.some.injEq] at h
        refine ⟨[], cs, rfl, by rw [← h]; simp, ?_⟩
        intro buf
        rw [List.nil_append]
        rw [stripAnsiAux_zero_notEsc buf cs (by decide)]
        rfl
      · by_cases he : c = '\x1b'
        · subst he
          rw [collapseAux_zero_esc] at h
          obtain ⟨pre, rest, hl, hr, hstrip⟩ := ih 1 ('\x1b' :: acc) r h
          refine ⟨'\x1b' :: pre, rest, by rw [hl]; rfl, ?_, ?_⟩
          · rw [hr, List.reverse_cons]
            simp [List.append_assoc]
          · intro buf
            rw [List.cons_append, stripAnsiAux_zero_esc]
            exact hstrip []
        · rw [collapseAux_zero_other acc cs hc he] at h
          exact absurd h (by simp)
    | 1 =>
      by_cases hb : c = '['
      · subst hb
        rw [collapseAux_one_lb] at h
        obtain ⟨pre, rest, hl, hr, hstrip⟩ := ih 2 ('[' :: acc) r h
        refine ⟨'[' :: pre, rest, by rw [hl]; rfl, ?_, ?_⟩
        · rw [hr, List.reverse_cons]
          simp [List.append_assoc]
        · intro buf
          rw [List.cons_append, stripAnsiAux_one_lb]
          exact hstrip []
      · rw [collapseAux_one_other acc cs hb] at h
        exact absurd h (by simp)
    | 2 =>
      by_cases hb : ansiBody c = true
      · rw [collapseAux_two_body acc cs hb] at h
        obtain ⟨pre, rest, hl, hr, hstrip⟩ := ih 2 (c :: acc) r h
        refine ⟨c :: pre, rest, by rw [hl]; rfl, ?_, ?_⟩
        · rw [hr, List.reverse_cons]
          simp [List.append_assoc]
        · intro buf
          rw [List.cons_append, stripAnsiAux_two_body buf _ hb]
          exact hstrip (c :: buf)
      · rw [Bool.not_eq_true] at hb
        by_cases hm : c = 'm'
        · subst hm
          rw [collapseAux_two_m] at h
          obtain ⟨pre, rest, hl, hr, hstrip⟩ := ih 0 ('m' :: acc) r h
          refine ⟨'m' :: pre, rest, by rw [hl]; rfl, ?_, ?_⟩
          · rw [hr, List.reverse_cons]
            simp [List.append_assoc]
          · intro buf
            rw [List.cons_append, stripAnsiAux_two_m]
            exact hstrip []
        · rw [collapseAux_two_other acc cs hb hm] at h
          exact absurd h (by simp)
    | n + 3 =>
      simp [collapseAux] at h

lemma getLast?_append_cons {l1 : List Char} {c : Char} {l2 : List Char} :
    (l1 ++ c :: l2).getLast? = (c :: l2).getLast? := by
  rw [List.getLast?_append]
  cases h : (c :: l2).getLast? with
  | none =>
    rw [List.getLast?_eq_none_iff] at h
    cases h
  | some a => rfl

/-- A collapsed added data line still has no trailing whitespace. -/
lemma collapsePlus_rstrip {l : List Char} (hr : pyRstrip l = l)
    (hp : (parse_gas_line l).isSome = true) :
    pyRstrip (collapsePlus l) = collapsePlus l := by
  unfold collapsePlus
  cases hc : collapseAux 0 [] l with
  | none => simpa using hr
  | some r =>
    simp only [Option.getD_some]
    obtain ⟨pre, rest, hl, hrr, hstrip⟩ := collapseAux_some_spec l 0 [] r hc
    cases rest with
    | nil =>
      exfalso
      have hs : strip_ansi_codes l = ['+'] := by
        rw [hl]
        have h1 := hstrip []
        rw [show strip_ansi_codes ([] : List Char) = [] from rfl] at h1
        exact h1
      have hclean : pyLstrip (dropMarker (pyLstrip (strip_ansi_codes l)))
          = ([] : List Char) := by
        rw [hs]; decide
      rw [parse_gas_line] at hp
      rw [hclean] at hp
      exact absurd hp (by decide)
    | cons d ds =>
      rw [hrr, List.reverse_nil, List.nil_append]
      rw [rstrip_fixed_iff]
      intro c hc'
      have hgl : (pre ++ ' ' :: d :: ds).getLast? = (d :: ds).getLast? := by
        rw [getLast?_append_cons, List.getLast?_cons_cons]
      have hgl2 : l.getLast? = (d :: ds).getLast? := by
        rw [hl, getLast?_append_cons, List.getLast?_cons_cons]
      rw [hgl] at hc'
      exact (rstrip_fixed_iff.mp hr) c (by rw [hgl2]; exact hc')

/-- Every line of a chunk as collected by the loop is already rstripped. -/
lemma chunk_snd_rstripped {i : Nat} {l0 : List Char}
    {tw : List (Nat × List Char)} :
    ∀ x ∈ (i, pyRstrip l0) :: tw.map (fun e => (e.1, pyRstrip e.2)),
      pyRstrip x.2 = x.2 := by
  intro x hx
  rcases List.mem_cons.mp hx with rfl | hx
  · exact pyRstrip_idem l0
  · rw [List.mem_map] at hx
    obtain ⟨e, _, rfl⟩ := hx
    exact pyRstrip_idem e.2

/-- Anything emitted for a chunk is either a chunk line verbatim or the
collapse of an added data line of the chunk. -/
lemma emit_value_cases {chunk : List (Nat × List Char)} {rel tol : ℚ}
    {e : Nat × List Char} {v : List Char} (he : e ∈ chunk)
    (h : emitChunkLine chunk rel tol e = some v) :
    (∃ e' ∈ chunk, v = e'.2) ∨
    (∃ e' ∈ chunk, (parse_gas_line e'.2).isSome = true
      ∧ v = collapsePlus e'.2) := by
  unfold emitChunkLine at h
  cases hparse : parse_gas_line e.2 with
  | none =>
    simp only [hparse] at h
    by_cases hm : _is_minus e.2 = true
    · rw [if_pos hm, Option.some.injEq] at h
      exact Or.inl ⟨e, he, h.symm⟩
    · rw [if_neg hm] at h
      by_cases hp2 : _is_plus e.2 = true
      · rw [if_pos hp2] at h
        by_cases hd : ndPlusDropped chunk e.1 e.2 = true
        · rw [if_pos hd] at h
          exact absurd h (by simp)
        · rw [if_neg hd, Option.some.injEq] at h
          exact Or.inl ⟨e, he, h.symm⟩
      · rw [if_neg hp2] at h
        exact absurd h (by simp)
  | some p =>
    obtain ⟨f, g⟩ := p
    simp only [hparse] at h
    by_cases hm : _is_minus e.2 = true
    · rw [if_pos hm] at h
      cases hmm : minusMap chunk f with
      | none =>
        rw [hmm] at h
        exact absurd h (by simp)
      | some q =>
        obtain ⟨mi, ml⟩ := q
        simp only [hmm] at h
        by_cases hmi : mi = e.1
        · rw [if_pos hmi] at h
          cases hpm : plusMap chunk f with
          | none =>
            simp only [hpm, Option.some.injEq] at h
            exact Or.inl ⟨(mi, ml), (minusMap_mem hmm).1, h.symm⟩
          | some q' =>
            obtain ⟨pi, pl⟩ := q'
            simp only [hpm] at h
            by_cases hcmp : compare_gas_lines ml pl rel tol = true
            · rw [if_pos hcmp, Option.some.injEq] at h
              exact Or.inl ⟨(mi, ml), (minusMap_mem hmm).1, h.symm⟩
            · rw [if_neg hcmp, Option.some.injEq] at h
              have hpmem := plusMap_mem hpm
              refine Or.inr ⟨(pi, pl), hpmem.1, ?_, h.symm⟩
              have := hpmem.2.1
              unfold dataPlus at this
              rw [Bool.and_eq_true, Bool.and_eq_true] at this
              exact this.1.1
        · rw [if_neg hmi] at h
          exact absurd h (by simp)
    · rw [if_neg hm] at h
      by_cases hp2 : _is_plus e.2 = true
      · rw [if_pos hp2] at h
        cases hpm : plusMap chunk f with
        | none =>
          rw [hpm] at h
          exact absurd h (by simp)
        | some q =>
          obtain ⟨pi, pl⟩ := q
          simp only [hpm] at h
          by_cases hpi : pi = e.1
          · rw [if_pos hpi] at h
            cases hmm : minusMap chunk f with
            | none =>
              simp only [hmm, Option.some.injEq] at h
              exact Or.inl ⟨(pi, pl), (plusMap_mem hpm).1, h.symm⟩
            | some q' =>
              obtain ⟨mi, ml⟩ := q'
              simp only [hmm] at h
              by_cases hcmp : compare_gas_lines ml pl rel tol = true
              · rw [if_pos hcmp, Option.some.injEq] at h
                exact Or.inl ⟨(pi, pl), (plusMap_mem hpm).1, h.symm⟩
              · rw [if_neg hcmp] at h
                exact absurd h (by simp)
          · rw [if_neg hpi] at h
            exact absurd h (by simp)
      · rw [if_neg hp2] at h
        exact absurd h (by simp)

lemma filterAux_output_rstripped (rel tol : ℚ) :
    ∀ (fuel : Nat) (l : List (Nat × List Char)),
      ∀ x ∈ (filterAux rel tol fuel l).1, pyRstrip x.2 = x.2 := by
  intro fuel
  induction fuel with
  | zero =>
    intro l x hx
    cases l with
    | nil => simp [filterAux] at hx
    | cons y ys => simp [filterAux] at hx
  | succ fuel ih =>
    intro l x hx
    cases l with
    | nil => simp [filterAux] at hx
    | cons y ys =>
      obtain ⟨i, l0⟩ := y
      by_cases hctx : _is_context_line (pyRstrip l0) = true
      · rw [filterAux_cons_context hctx] at hx
        rcases List.mem_cons.mp hx with rfl | hx
        · exact pyRstrip_idem l0
        · exact ih ys x hx
      · rw [Bool.not_eq_true] at hctx
        by_cases hmp : (_is_minus (pyRstrip l0) || _is_plus (pyRstrip l0)) = true
        · rw [filterAux_cons_chunk hctx hmp] at hx
          rcases List.mem_append.mp hx with hx | hx
          · unfold processChunk at hx
            rw [List.mem_filterMap] at hx
            obtain ⟨e, he, hemit⟩ := hx
            cases hv : emitChunkLine ((i, pyRstrip l0) ::
                (ys.takeWhile chunkPred).map (fun e => (e.1, pyRstrip e.2)))
                rel tol e with
            | none => rw [hv] at hemit; exact absurd hemit (by simp)
            | some v =>
              rw [hv, Option.map_some', Option.some.injEq] at hemit
              rw [← hemit]
              rcases emit_value_cases he hv with ⟨e', he', hve⟩ |
                  ⟨e', he', hpe', hve⟩
              · rw [hve]
                exact chunk_snd_rstripped e' he'
              · rw [hve]
                exact collapsePlus_rstrip (chunk_snd_rstripped e' he') hpe'
          · exact ih (ys.dropWhile chunkPred) x hx
        · rw [Bool.not_eq_true] at hmp
          rw [filterAux_cons_other hctx hmp] at hx
          rcases List.mem_cons.mp hx with rfl | hx
          · exact pyRstrip_idem l0
          · exact ih ys x hx

/-- C10.  Every emitted line has its trailing whitespace stripped, so an
input containing a line with trailing spaces is never reproduced
byte-identically, even when nothing is removed or added. -/
theorem c10_trailing_whitespace_stripped :
    (∀ (lines : List (List Char)) (rel tol : ℚ) (l : List Char),
        l ∈ (filter_colored_diff_lines lines rel tol).1 → pyRstrip l = l) ∧
    (filter_colored_diff_lines [" x  ".toList] (mkRat 1 100) 10).1
      ≠ [" x  ".toList] := by
  constructor
  · intro lines rel tol l hl
    rw [filter_colored_diff_lines] at hl
    simp only at hl
    rw [List.mem_map] at hl
    obtain ⟨x, hx, rfl⟩ := hl
    exact filterAux_output_rstripped rel tol _ _ x hx
  · decide

/-- Witness for C10 at a concrete emitted line. -/
theorem c10_trailing_whitespace_stripped_witness :
    pyRstrip (" x".toList) = " x".toList :=
  c10_trailing_whitespace_stripped.1 [" x  ".toList] (mkRat 1 100) 10
    (" x".toList) (by decide)

/-! ## Greedy non-data de-duplication (C6) -/

lemma count_take_mono (pls : List Nat) (m : Nat) {j k : Nat} (hjk : j ≤ k) :
    (pls.take j).count m ≤ (pls.take k).count m := by
  have h : pls.take j = (pls.take k).take j := by
    rw [List.take_take, Nat.min_eq_left hjk]
  rw [h]
  exact (List.take_sublist j (pls.take k)).count_le m

lemma count_take_succ (m : Nat) :
    ∀ (pls : List Nat) (k : Nat), k < pls.length →
      (pls.take (k + 1)).count m
        = (pls.take k).count m + (if pls.getD k 0 = m then 1 else 0) := by
  intro pls
  induction pls with
  | nil => intro k hk; simp at hk
  | cons p ps ih =>
    intro k hk
    cases k with
    | zero =>
      rw [show (p :: ps).take 1 = [p] from rfl, show (p :: ps).take 0 = [] from rfl,
        List.getD_cons_zero]
      by_cases h : p = m
      · subst h; simp [List.count_cons]
      · simp [List.count_cons, h, Ne.symm h]
    | succ k' =>
      rw [List.length_cons] at hk
      rw [show (p :: ps).take (k' + 1 + 1) = p :: ps.take (k' + 1) from rfl,
        show (p :: ps).take (k' + 1) = p :: ps.take k' from rfl,
        List.count_cons, List.count_cons, List.getD_cons_succ,
        ih k' (by omega)]
      split_ifs <;> omega

lemma count_take_lt (m : Nat) (pls : List Nat) {j k : Nat} (hjk : j < k)
    (hj : j < pls.length) (hm : pls.getD j 0 = m) :
    (pls.take j).count m + 1 ≤ (pls.take k).count m := by
  have h1 : (pls.take (j + 1)).count m = (pls.take j).count m + 1 := by
    rw [count_take_succ m pls j hj, hm, if_pos rfl]
  calc (pls.take j).count m + 1 = (pls.take (j + 1)).count m := h1.symm
    _ ≤ (pls.take k).count m := count_take_mono pls m hjk

lemma exists_prev_occurrence (m : Nat) (pls : List Nat) :
    ∀ (k : Nat), k ≤ pls.length → 1 ≤ (pls.take k).count m →
      ∃ j, j < k ∧ pls.getD j 0 = m ∧
        (pls.take j).count m + 1 = (pls.take k).count m := by
  intro k
  induction k with
  | zero => intro _ h; simp at h
  | succ k' ih =>
    intro hk hc
    by_cases hm : pls.getD k' 0 = m
    · refine ⟨k', Nat.lt_succ_self _, hm, ?_⟩
      rw [count_take_succ m pls k' (by omega), hm, if_pos rfl]
    · have heq : (pls.take (k' + 1)).count m = (pls.take k').count m := by
        rw [count_take_succ m pls k' (by omega), if_neg hm]
        omega
      rw [heq] at hc
      obtain ⟨j, hj1, hj2, hj3⟩ := ih (by omega) hc
      exact ⟨j, by omega, hj2, by rw [heq]; exact hj3⟩

lemma findMatchAux_some (used : List Nat) (m : Nat) :
    ∀ (pls : List Nat) (k0 k : Nat), findMatchAux used m pls k0 = some k →
      k0 ≤ k ∧ k - k0 < pls.length ∧ pls.getD (k - k0) 0 = m ∧ k ∉ used ∧
        ∀ j, j < k - k0 → pls.getD j 0 = m → (k0 + j) ∈ used := by
  intro pls
  induction pls with
  | nil => intro k0 k h; simp [findMatchAux] at h
  | cons p ps ih =>
    intro k0 k h
    rw [findMatchAux] at h
    by_cases hc : (!used.contains k0 && p == m) = true
    · rw [if_pos hc, Option.some.injEq] at h
      subst h
      rw [Bool.and_eq_true, Bool.not_eq_true', beq_iff_eq] at hc
      refine ⟨le_refl _, by simp, ?_, ?_, ?_⟩
      · rw [Nat.sub_self, List.getD_cons_zero]; exact hc.2
      · intro hmem
        have : k0 ∈ used ↔ used.contains k0 = true := by simp
        rw [this, hc.1] at hmem
        exact absurd hmem (by decide)
      · intro j hj; omega
    · rw [if_neg hc] at h
      obtain ⟨h1, h2, h3, h4, h5⟩ := ih (k0 + 1) k h
      have hk0 : k0 < k := by omega
      have hsub : k - k0 = (k - (k0 + 1)) + 1 := by omega
      refine ⟨by omega, ?_, ?_, h4, ?_⟩
      · rw [List.length_cons]; omega
      · rw [hsub, List.getD_cons_succ]; exact h3
      · intro j hj hval
        cases j with
        | zero =>
          rw [List.getD_cons_zero] at hval
          rw [Bool.and_eq_true, Bool.not_eq_true', beq_iff_eq] at hc
          push_neg at hc
          by_cases hcm : used.contains k0 = true
          · rw [Nat.add_zero]
            exact (by simpa using hcm : k0 ∈ used)
          · rw [Bool.not_eq_true] at hcm
            exact absurd hval (hc hcm)
        | succ j' =>
          have := h5 j' (by omega) (by rwa [List.getD_cons_succ] at hval)
          have heq : k0 + (j' + 1) = (k0 + 1) + j' := by omega
          rwa [heq]

lemma findMatchAux_none (used : List Nat) (m : Nat) :
    ∀ (pls : List Nat) (k0 : Nat), findMatchAux used m pls k0 = none →
      ∀ j, j < pls.length → pls.getD j 0 = m → (k0 + j) ∈ used := by
  intro pls
  induction pls with
  | nil => intro k0 _ j hj; simp at hj
  | cons p ps ih =>
    intro k0 h j hj hval
    rw [findMatchAux] at h
    by_cases hc : (!used.contains k0 && p == m) = true
    · rw [if_pos hc] at h
      exact absurd h (by simp)
    · rw [if_neg hc] at h
      cases j with
      | zero =>
        rw [List.getD_cons_zero] at hval
        rw [Bool.and_eq_true, Bool.not_eq_true', beq_iff_eq] at hc
        push_neg at hc
        by_cases hcm : used.contains k0 = true
        · rw [Nat.add_zero]
          exact (by simpa using hcm : k0 ∈ used)
        · rw [Bool.not_eq_true] at hcm
          exact absurd hval (hc hcm)
      | succ j' =>
        rw [List.length_cons] at hj
        have := ih (k0 + 1) h j' (by omega)
          (by rwa [List.getD_cons_succ] at hval)
        have heq : k0 + (j' + 1) = (k0 + 1) + j' := by omega
        rwa [heq]

/-- Loop invariant of the greedy matching: a position of the added-side
length list is used iff the number of equal-length positions before it is
below the number of removed-side lengths of that value processed so
far. -/
def usedInv (pls used proc : List Nat) : Prop :=
  ∀ k, k ∈ used ↔ k < pls.length ∧
    (pls.take k).count (pls.getD k 0) < proc.count (pls.getD k 0)

lemma greedyStep_some {pls used : List Nat} {m k0 : Nat}
    (h : findMatch pls used m = some k0) :
    greedyStep pls used m = used ++ [k0] := by
  simp [greedyStep, h]

lemma greedyStep_none {pls used : List Nat} {m : Nat}
    (h : findMatch pls used m = none) :
    greedyStep pls used m = used := by
  simp [greedyStep, h]

lemma count_append_single (proc : List Nat) (m x : Nat) :
    (proc ++ [m]).count x = proc.count x + (if x = m then 1 else 0) := by
  rw [List.count_append]
  by_cases hx : x = m
  · subst hx; simp [List.count_cons]
  · simp [List.count_cons, hx, Ne.symm hx]

lemma usedInv_step {pls used proc : List Nat} (m : Nat)
    (h : usedInv pls used proc) :
    usedInv pls (greedyStep pls used m) (proc ++ [m]) := by
  unfold usedInv at h ⊢
  cases hf : findMatch pls used m with
  | some k0 =>
    rw [greedyStep_some hf]
    obtain ⟨-, hlen, hval, hnotin, hmin⟩ := findMatchAux_some used m pls 0 k0 hf
    rw [Nat.sub_zero] at hlen hval
    have hmin' : ∀ j, j < k0 → pls.getD j 0 = m → j ∈ used := by
      intro j hj hjm
      have := hmin j (by omega) hjm
      simpa using this
    have hge : proc.count m ≤ (pls.take k0).count m := by
      by_contra hlt
      push_neg at hlt
      exact hnotin ((h k0).mpr ⟨hlen, by rw [hval]; exact hlt⟩)
    have hle : (pls.take k0).count m ≤ proc.count m := by
      by_contra hgt
      push_neg at hgt
      obtain ⟨j, hj1, hj2, hj3⟩ :=
        exists_prev_occurrence m pls k0 (le_of_lt hlen) (by omega)
      have hjused : j ∈ used := hmin' j hj1 hj2
      have := ((h j).mp hjused).2
      rw [hj2] at this
      omega
    intro k
    rw [List.mem_append, List.mem_singleton, count_append_single]
    by_cases hx : pls.getD k 0 = m
    · rw [hx, if_pos rfl]
      constructor
      · rintro (hk | rfl)
        · obtain ⟨h1, h2⟩ := (h k).mp hk
          rw [hx] at h2
          exact ⟨h1, by omega⟩
        · exact ⟨hlen, by omega⟩
      · rintro ⟨h1, h2⟩
        by_cases hk : (pls.take k).count m < proc.count m
        · exact Or.inl ((h k).mpr ⟨h1, by rw [hx]; exact hk⟩)
        · right
          by_contra hne
          rcases Nat.lt_or_ge k k0 with hlt | hge2
          · have hku : k ∈ used := hmin' k hlt hx
            have := ((h k).mp hku).2
            rw [hx] at this
            omega
          · have hgt : k0 < k := by omega
            have := count_take_lt m pls hgt hlen hval
            omega
    · rw [if_neg hx]
      constructor
      · rintro (hk | rfl)
        · obtain ⟨h1, h2⟩ := (h k).mp hk
          exact ⟨h1, by omega⟩
        · exact absurd hval hx
      · rintro ⟨h1, h2⟩
        exact Or.inl ((h k).mpr ⟨h1, by omega⟩)
  | none =>
    rw [greedyStep_none hf]
    have hall := findMatchAux_none used m pls 0 hf
    intro k
    rw [count_append_single]
    by_cases hx : pls.getD k 0 = m
    · constructor
      · intro hk
        obtain ⟨h1, h2⟩ := (h k).mp hk
        exact ⟨h1, by omega⟩
      · rintro ⟨h1, -⟩
        have := hall k h1 hx
        simpa using this
    · rw [if_neg hx]
      constructor
      · intro hk
        obtain ⟨h1, h2⟩ := (h k).mp hk
        exact ⟨h1, by omega⟩
      · rintro ⟨h1, h2⟩
        exact (h k).mpr ⟨h1, by omega⟩

lemma usedInv_fold (pls : List Nat) :
    ∀ (mls used proc : List Nat), usedInv pls used proc →
      usedInv pls (mls.foldl (greedyStep pls) used) (proc ++ mls) := by
  intro mls
  induction mls with
  | nil =>
    intro used proc h
    simpa using h
  | cons m ms ih =>
    intro used proc h
    rw [List.foldl_cons]
    have h3 := ih (greedyStep pls used m) (proc ++ [m]) (usedInv_step m h)
    rwa [List.append_assoc, List.singleton_append] at h3

/-- Characterization of the greedy matching: position `k` of the
added-side group is claimed iff the number of earlier same-length
positions is below the total number of removed-side rows of that
length. -/
lemma greedyUsed_mem_iff (mls pls : List Nat) (k : Nat) :
    k ∈ greedyUsed mls pls ↔
      k < pls.length ∧
        (pls.take k).count (pls.getD k 0) < mls.count (pls.getD k 0) := by
  have base : usedInv pls [] [] := by
    unfold usedInv
    intro j
    constructor
    · intro hj; simp at hj
    · rintro ⟨-, h2⟩; simp at h2
  have hfold := usedInv_fold pls mls [] [] base
  rw [List.nil_append] at hfold
  exact hfold k

lemma findIdx?_first {α : Type} (p : α → Bool) :
    ∀ (l1 : List α) (e : α) (l2 : List α) (i : Nat),
      (∀ x ∈ l1, p x = false) → p e = true →
      List.findIdx? p (l1 ++ e :: l2) i = some (i + l1.length) := by
  intro l1
  induction l1 with
  | nil =>
    intro e l2 i _ he
    rw [List.nil_append, List.findIdx?, if_pos he]
    simp
  | cons x xs ih =>
    intro e l2 i hall he
    rw [List.cons_append, List.findIdx?]
    rw [hall x (List.mem_cons_self x xs)]
    simp only [Bool.false_eq_true, if_false]
    rw [ih e l2 (i + 1) (fun y hy => hall y (List.mem_cons_of_mem x hy)) he]
    rw [List.length_cons]
    congr 1
    omega

lemma getD_length_append (A : List Nat) (x : Nat) (B : List Nat) :
    (A ++ x :: B).getD A.length 0 = x := by
  induction A with
  | nil => rfl
  | cons a as ih =>
    rw [List.cons_append, List.length_cons, List.getD_cons_succ]
    exact ih

lemma count_map_eq_countP {α : Type} (f : α → Nat) (L : List α) (m : Nat) :
    (L.map f).count m = L.countP (fun e => f e == m) := by
  induction L with
  | nil => rfl
  | cons a t ih =>
    rw [List.map_cons, List.count_cons, List.countP_cons, ih]

/-- C6 counterexample: a removed and an added non-data row with equal
normalized content and equal ANSI-stripped length but different raw
(ANSI-inclusive) lengths are still de-duplicated (the added row is
dropped), so "identical raw length" is not the criterion the code uses. -/
theorem c6_raw_length_counterexample :
    ("-===".toList).length ≠ ("\x1b[32m+===\x1b[0m".toList).length ∧
    ndNorm ("-===".toList) = ndNorm ("\x1b[32m+===\x1b[0m".toList) ∧
    ndLen ("-===".toList) = ndLen ("\x1b[32m+===\x1b[0m".toList) ∧
    filter_colored_diff_lines ["-===".toList, "\x1b[32m+===\x1b[0m".toList]
      (mkRat 1 100) 10 = (["-===".toList], false) :=
  ⟨by decide, by decide, by decide, by decide⟩

/-- C6 amended.  Non-data rows: a removed-side row is always kept
unchanged; an added-side row is dropped iff the number of earlier
added-side rows with the same normalized content and the same
ANSI-stripped length is below the number of removed-side rows of that
class in the chunk — i.e. de-duplication pairs rows with identical
normalized content AND identical ANSI-stripped (not raw) length, greedily
in order of appearance. -/
theorem c6_nd_dedup_rank (chunk pre post : List (Nat × List Char))
    (rel tol : ℚ) (idx : Nat) (l : List Char)
    (hnd : (chunk.map Prod.fst).Nodup)
    (hsplit : chunk = pre ++ (idx, l) :: post)
    (hparse : parse_gas_line l = none) :
    (_is_minus l = true → (idx, l) ∈ processChunk chunk rel tol) ∧
    (_is_minus l = false → _is_plus l = true →
      ((idx, l) ∉ processChunk chunk rel tol ↔
        pre.countP (fun x => ndPlus x && (ndNorm x.2 == ndNorm l)
            && (ndLen x.2 == ndLen l))
          < chunk.countP (fun x => ndMinus x && (ndNorm x.2 == ndNorm l)
            && (ndLen x.2 == ndLen l)))) := by
  have he : (idx, l) ∈ chunk := by
    rw [hsplit]
    exact List.mem_append_right pre (List.mem_cons_self _ _)
  constructor
  · intro hm
    have hemit : emitChunkLine chunk rel tol (idx, l) = some l := by
      simp [emitChunkLine, hparse, hm]
    exact mem_processChunk_of_emit he hemit
  · intro hm hp
    have hnp : ndPlus (idx, l) = true := by
      unfold ndPlus
      rw [hparse, hm, hp]
      rfl
    have hemit : emitChunkLine chunk rel tol (idx, l)
        = if ndPlusDropped chunk idx l then none else some l := by
      simp [emitChunkLine, hparse, hm, hp]
    -- membership is equivalent to not being dropped
    have hfilter := @processChunk_filter_eq chunk rel tol (idx, l) hnd he
    have hmem : (idx, l) ∈ processChunk chunk rel tol ↔
        ndPlusDropped chunk idx l = false := by
      constructor
      · intro hmem
        by_contra hdrop
        rw [Bool.not_eq_false] at hdrop
        rw [hemit, hdrop, if_pos rfl] at hfilter
        have : (idx, l) ∈ (processChunk chunk rel tol).filter
            (fun y => y.1 == idx) := by
          rw [List.mem_filter]
          exact ⟨hmem, by simp⟩
        rw [hfilter] at this
        simp [Option.elim] at this
      · intro hdrop
        rw [hemit, hdrop] at hfilter
        simp only [Bool.false_eq_true, if_false, Option.elim] at hfilter
        have : (idx, l) ∈ (processChunk chunk rel tol).filter
            (fun y => y.1 == idx) := by
          rw [hfilter]
          exact List.mem_singleton.mpr rfl
        exact (List.mem_filter.mp this).1
    -- unfold the dropped test into the greedy characterization
    have hnotpre : ∀ x ∈ pre, (x.1 == idx) = false := by
      intro x hx
      rw [hsplit, List.map_append, List.map_cons, List.nodup_append] at hnd
      have hne : x.1 ≠ idx := by
        intro heq
        exact hnd.2.2 (List.mem_map_of_mem Prod.fst hx)
          (heq ▸ List.mem_cons_self idx _)
      simpa using hne
    have hql : (ndPlus (idx, l) && (ndNorm (idx, l).2 == ndNorm l)) = true := by
      rw [hnp]
      simp
    have hpg : ndPlusGroup chunk (ndNorm l)
        = pre.filter (fun e => ndPlus e && ndNorm e.2 == ndNorm l)
          ++ (idx, l) ::
            post.filter (fun e => ndPlus e && ndNorm e.2 == ndNorm l) := by
      unfold ndPlusGroup
      rw [hsplit, List.filter_append, List.filter_cons, if_pos hql]
    have hdrop_iff : ndPlusDropped chunk idx l = true ↔
        pre.countP (fun x => ndPlus x && (ndNorm x.2 == ndNorm l)
            && (ndLen x.2 == ndLen l))
          < chunk.countP (fun x => ndMinus x && (ndNorm x.2 == ndNorm l)
            && (ndLen x.2 == ndLen l)) := by
      have hfind := findIdx?_first (fun e => e.1 == idx)
        (pre.filter (fun e => ndPlus e && ndNorm e.2 == ndNorm l))
        (idx, l) (post.filter (fun e => ndPlus e && ndNorm e.2 == ndNorm l)) 0
        (fun x hx => hnotpre x (List.mem_filter.mp hx).1) (by simp)
      rw [Nat.zero_add] at hfind
      simp only [ndPlusDropped, hpg, hfind, List.map_append, List.map_cons]
      have hmemiff : ∀ (L : List Nat) (a : Nat), L.contains a = true ↔ a ∈ L := by
        intro L a
        simp
      rw [hmemiff]
      have hlenA : (pre.filter
            (fun e => ndPlus e && ndNorm e.2 == ndNorm l)).length
          = ((pre.filter (fun e => ndPlus e && ndNorm e.2 == ndNorm l)).map
              (fun e => ndLen e.2)).length := by
        rw [List.length_map]
      rw [hlenA, greedyUsed_mem_iff]
      set A := (pre.filter (fun e => ndPlus e && ndNorm e.2 == ndNorm l)).map
        (fun e => ndLen e.2) with hA
      set B := (post.filter (fun e => ndPlus e && ndNorm e.2 == ndNorm l)).map
        (fun e => ndLen e.2) with hB
      have hklen : A.length < (A ++ ndLen l :: B).length := by
        rw [List.length_append, List.length_cons]
        omega
      have hgd : (A ++ ndLen l :: B).getD A.length 0 = ndLen l :=
        getD_length_append A _ B
      have htk : (A ++ ndLen l :: B).take A.length = A := List.take_left A _
      rw [hgd, htk]
      have hcountA : A.count (ndLen l)
          = pre.countP (fun x => ndPlus x && (ndNorm x.2 == ndNorm l)
              && (ndLen x.2 == ndLen l)) := by
        rw [hA, count_map_eq_countP, List.countP_filter]
        apply List.countP_congr
        intro x _
        cases h1 : ndPlus x <;> cases h2 : (ndNorm x.2 == ndNorm l)
          <;> cases h3 : (ndLen x.2 == ndLen l) <;> simp [h1, h2, h3]
      have hcountM : (ndMinusLens chunk (ndNorm l)).count (ndLen l)
          = chunk.countP (fun x => ndMinus x && (ndNorm x.2 == ndNorm l)
              && (ndLen x.2 == ndLen l)) := by
        unfold ndMinusLens
        rw [count_map_eq_countP, List.countP_filter]
        apply List.countP_congr
        intro x _
        cases h1 : ndMinus x <;> cases h2 : (ndNorm x.2 == ndNorm l)
          <;> cases h3 : (ndLen x.2 == ndLen l) <;> simp [h1, h2, h3]
      rw [hcountA, hcountM]
      constructor
      · rintro ⟨-, h2⟩
        exact h2
      · intro h2
        exact ⟨hklen, h2⟩
    constructor
    · intro hno
      rw [← hdrop_iff, ← Bool.not_eq_false]
      intro hdf
      exact hno (hmem.mpr hdf)
    · intro hrank hmem2
      have hdf := hmem.mp hmem2
      have hdt := hdrop_iff.mpr hrank
      rw [hdf] at hdt
      exact absurd hdt (by decide)

/-- Witness for C6 amended at the concrete two-row chunk of the
counterexample: the added row is dropped iff one earlier-class removed
row exists, which holds. -/
theorem c6_nd_dedup_rank_witness :
    (1, "\x1b[32m+===\x1b[0m".toList) ∉
      processChunk [(0, "-===".toList), (1, "\x1b[32m+===\x1b[0m".toList)]
        (mkRat 1 100) 10 ↔
    [(0, "-===".toList)].countP (fun x => ndPlus x
        && (ndNorm x.2 == ndNorm ("\x1b[32m+===\x1b[0m".toList))
        && (ndLen x.2 == ndLen ("\x1b[32m+===\x1b[0m".toList)))
      < [(0, "-===".toList), (1, "\x1b[32m+===\x1b[0m".toList)].countP
        (fun x => ndMinus x
          && (ndNorm x.2 == ndNorm ("\x1b[32m+===\x1b[0m".toList))
          && (ndLen x.2 == ndLen ("\x1b[32m+===\x1b[0m".toList))) :=
  (c6_nd_dedup_rank [(0, "-===".toList), (1, "\x1b[32m+===\x1b[0m".toList)]
      [(0, "-===".toList)] [] (mkRat 1 100) 10 1
      ("\x1b[32m+===\x1b[0m".toList)
      (by decide) (by decide) (by decide)).2 (by decide) (by decide)

/-! ## Context-line classification (C7) -/

lemma leadsWith_iff (pat : List Char) :
    ∀ (l : List Char), leadsWith pat l = true ↔ ∃ t, l = pat ++ t := by
  induction pat with
  | nil =>
    intro l
    simp [leadsWith]
  | cons p ps ih =>
    intro l
    cases l with
    | nil =>
      simp [leadsWith]
    | cons c cs =>
      rw [show leadsWith (p :: ps) (c :: cs)
        = (decide (p = c) && leadsWith ps cs) from rfl]
      rw [Bool.and_eq_true, decide_eq_true_eq, ih cs]
      constructor
      · rintro ⟨rfl, t, rfl⟩
        exact ⟨t, rfl⟩
      · rintro ⟨t, ht⟩
        injection ht with h1 h2
        exact ⟨h1.symm, t, h2⟩

lemma boundaryAux_iff (pat : List Char) :
    ∀ (l : List Char), boundaryAux pat l = true ↔
      ∃ ahead c post, l = ahead ++ c :: post ∧ pyWs c = true ∧
        ∃ t, post = pat ++ t := by
  intro l
  induction l with
  | nil =>
    rw [show boundaryAux pat [] = false from rfl]
    constructor
    · intro h
      exact absurd h (by decide)
    · rintro ⟨ahead, c, post, heq, -, -⟩
      cases ahead <;> exact absurd heq (by simp)
  | cons d ds ih =>
    rw [show boundaryAux pat (d :: ds)
      = ((pyWs d && leadsWith pat ds) || boundaryAux pat ds) from rfl]
    rw [Bool.or_eq_true, Bool.and_eq_true, leadsWith_iff, ih]
    constructor
    · rintro (⟨hws, t, rfl⟩ | ⟨ahead, c, post, rfl, hws, ht⟩)
      · exact ⟨[], d, pat ++ t, rfl, hws, t, rfl⟩
      · exact ⟨d :: ahead, c, post, rfl, hws, ht⟩
    · rintro ⟨ahead, c, post, heq, hws, t, rfl⟩
      cases ahead with
      | nil =>
        injection heq with h1 h2
        subst h1
        subst h2
        exact Or.inl ⟨hws, t, rfl⟩
      | cons a' ahead' =>
        injection heq with h1 h2
        subst h2
        exact Or.inr ⟨ahead', c, pat ++ t, rfl, hws, t, rfl⟩

/-- The occurrence condition of `re.search(r"(^|\s)pat", line)`: the
pattern at the start of the line, or right after a whitespace
character. -/
def BoundaryMatch (pat l : List Char) : Prop :=
  (∃ t, l = pat ++ t) ∨
    ∃ ahead c post, l = ahead ++ c :: post ∧ pyWs c = true ∧
      ∃ t, post = pat ++ t

lemma searchBoundary_iff (pat l : List Char) :
    searchBoundary pat l = true ↔ BoundaryMatch pat l := by
  unfold searchBoundary BoundaryMatch
  rw [Bool.or_eq_true, leadsWith_iff, boundaryAux_iff]

/-- Context classification modelled from the claim wording: the line
starts with a single leading space and is neither removed (per the
`_is_minus` pattern: red-coded `-`, `-|`, or leading `-` but not `---`)
nor added (the `_is_plus` analogue). -/
def contextPerClaim (l : List Char) : Bool :=
  leadsWith [' '] l && !leadsWith [' ', ' '] l && !_is_minus l && !_is_plus l

/-- C7 counterexample: the line `" a -b"` starts with a single space and
is neither `_is_minus` nor `_is_plus` (so the claim calls it context),
but `_is_context_line` rejects it because its inline search also matches
a bare `-` after any whitespace. -/
theorem c7_context_counterexample :
    _is_context_line (" a -b".toList) = false ∧
    contextPerClaim (" a -b".toList) = true :=
  ⟨by decide, by decide⟩

/-- C7 amended.  A line is labelled context iff it is nonempty, starts
with a space (one or more), and contains no occurrence — at the line
start or immediately after any whitespace character — of red-coded `-`,
`-|`, bare `-`, green-coded `+`, `+|`, or bare `+` (these inline
patterns, not the `_is_minus`/`_is_plus` classifiers, and with no
single-space requirement). -/
theorem c7_context_characterization (l : List Char) :
    _is_context_line l = true ↔
      (l ≠ [] ∧ (∃ t, l = ' ' :: t) ∧
       ¬BoundaryMatch redMinusPat l ∧ ¬BoundaryMatch ['-', '|'] l ∧
       ¬BoundaryMatch ['-'] l ∧ ¬BoundaryMatch greenPlusPat l ∧
       ¬BoundaryMatch ['+', '|'] l ∧ ¬BoundaryMatch ['+'] l) := by
  unfold _is_context_line
  split_ifs with h1 h2 h3 h4
  · simp only [false_iff]
    intro hc
    exact hc.1 (List.isEmpty_iff.mp h1)
  · simp only [false_iff]
    intro hc
    obtain ⟨t, rfl⟩ := hc.2.1
    have hlf : leadsWith [' '] (' ' :: t) = true := by
      rw [leadsWith_iff]
      exact ⟨t, rfl⟩
    rw [hlf] at h2
    exact absurd h2 (by decide)
  · simp only [false_iff]
    intro hc
    rcases Bool.or_eq_true .. |>.mp h3 with h | h
    · rcases Bool.or_eq_true .. |>.mp h with h | h
      · exact hc.2.2.1 ((searchBoundary_iff _ _).mp h)
      · exact hc.2.2.2.1 ((searchBoundary_iff _ _).mp h)
    · exact hc.2.2.2.2.1 ((searchBoundary_iff _ _).mp h)
  · simp only [false_iff]
    intro hc
    rcases Bool.or_eq_true .. |>.mp h4 with h | h
    · rcases Bool.or_eq_true .. |>.mp h with h | h
      · exact hc.2.2.2.2.2.1 ((searchBoundary_iff _ _).mp h)
      · exact hc.2.2.2.2.2.2.1 ((searchBoundary_iff _ _).mp h)
    · exact hc.2.2.2.2.2.2.2 ((searchBoundary_iff _ _).mp h)
  · simp only [true_iff]
    rw [Bool.not_eq_true] at h3 h4
    rw [Bool.or_eq_false_iff, Bool.or_eq_false_iff] at h3 h4
    have hne : l ≠ [] := by
      intro hl
      rw [hl] at h1
      exact h1 (by decide)
    have hsp : ∃ t, l = ' ' :: t := by
      have hlw : leadsWith [' '] l = true := by
        cases hx : leadsWith [' '] l with
        | true => rfl
        | false => exact absurd (by rw [hx]; rfl) h2
      obtain ⟨t, ht⟩ := (leadsWith_iff [' '] l).mp hlw
      exact ⟨t, ht⟩
    refine ⟨hne, hsp, ?_, ?_, ?_, ?_, ?_, ?_⟩
    · intro hb
      have := (searchBoundary_iff redMinusPat l).mpr hb
      rw [h3.1.1] at this
      exact absurd this (by decide)
    · intro hb
      have := (searchBoundary_iff ['-', '|'] l).mpr hb
      rw [h3.1.2] at this
      exact absurd this (by decide)
    · intro hb
      have := (searchBoundary_iff ['-'] l).mpr hb
      rw [h3.2] at this
      exact absurd this (by decide)
    · intro hb
      have := (searchBoundary_iff greenPlusPat l).mpr hb
      rw [h4.1.1] at this
      exact absurd this (by decide)
    · intro hb
      have := (searchBoundary_iff ['+', '|'] l).mpr hb
      rw [h4.1.2] at this
      exact absurd this (by decide)
    · intro hb
      have := (searchBoundary_iff ['+'] l).mpr hb
      rw [h4.2] at this
      exact absurd this (by decide)

end CompareGas
